/-
Verification of the hop-go template compiler/runtime against its
natural-language specification.

The Go source is shallowly embedded: Go maps become association lists
(with list order standing in for Go's unspecified map iteration order),
Go slices become lists, fallible functions return `Except`, and loops
whose termination is not structural take an explicit fuel argument that
is proved (or chosen) large enough to reproduce the source's behaviour.
-/
import Mathlib

namespace Hop

/-! # Topological sort (internal/toposort)

Embedding of `TopologicalSort(graph map[string]map[string]bool, label string)`:
Kahn's algorithm over a dependency graph, returning dependencies before
dependents (the processing order is reversed at the end).  A graph is an
association list from node name to its dependency set. -/

namespace Toposort

/-- A dependency graph, Go `map[string]map[string]bool`.  List order models
Go's (unspecified) map iteration order; a `bool` set becomes a list of keys. -/
abbrev Graph := List (String × List String)

/-- The node names of the graph (the keys of the Go map). -/
def keys (g : Graph) : List String := g.map Prod.fst

/-- `graph[node]` — the dependency set of `node` (empty when absent). -/
def getDeps (g : Graph) (n : String) : List String :=
  match g.find? (fun p => p.1 == n) with
  | some p => p.2
  | none => []

/-- `inDegree[n]` — reading a Go `map[string]int` defaults to 0. -/
def getDeg (deg : List (String × Int)) (n : String) : Int :=
  match deg.find? (fun p => p.1 == n) with
  | some p => p.2
  | none => 0

/-- `inDegree[n] = v` — update the entry for `n`, inserting it if missing. -/
def setDeg : List (String × Int) → String → Int → List (String × Int)
  | [], n, v => [(n, v)]
  | (k, w) :: rest, n, v =>
    if k == n then (n, v) :: rest else (k, w) :: setDeg rest n v

/-- Inner loop of the in-degree pass: `for dep := range dependencies`,
checking `graph[dep]` exists and incrementing `inDegree[dep]`. -/
def bumpDeps (g : Graph) (label node : String) :
    List String → List (String × Int) → Except String (List (String × Int))
  | [], deg => .ok deg
  | dep :: rest, deg =>
    if (g.find? (fun p => p.1 == dep)).isSome then
      bumpDeps g label node rest (setDeg deg dep (getDeg deg dep + 1))
    else
      .error (label ++ " " ++ node ++ " depends on undefined " ++ label ++ " " ++ dep)

/-- Outer loop of the in-degree pass: `for node, dependencies := range graph`,
initializing `inDegree[node]` to 0 when absent, then bumping dependencies. -/
def computeInDegreeAux (g : Graph) (label : String) :
    Graph → List (String × Int) → Except String (List (String × Int))
  | [], deg => .ok deg
  | (node, deps) :: rest, deg =>
    let deg := if (deg.find? (fun p => p.1 == node)).isSome then deg
               else setDeg deg node 0
    match bumpDeps g label node deps deg with
    | .ok deg2 => computeInDegreeAux g label rest deg2
    | .error e => .error e

def computeInDegree (g : Graph) (label : String) :
    Except String (List (String × Int)) :=
  computeInDegreeAux g label g []

/-- Initial queue: `for node, deg := range inDegree { if deg == 0 { queue = append } }`. -/
def initQueue (deg : List (String × Int)) : List String :=
  (deg.filter (fun p => p.2 == 0)).map Prod.fst

/-- Inner loop of the processing phase:
`for dep := range graph[node] { inDegree[dep]--; if inDegree[dep] == 0 { queue = append } }`. -/
def decDeps : List String → List (String × Int) → List String →
    List String × List (String × Int)
  | queue, deg, [] => (queue, deg)
  | queue, deg, dep :: rest =>
    let d := getDeg deg dep - 1
    let deg2 := setDeg deg dep d
    if d = 0 then decDeps (queue ++ [dep]) deg2 rest else decDeps queue deg2 rest

/-- The `for len(queue) > 0` loop.  One node is appended to `result` per
iteration, so `g.length + 1` fuel reproduces the Go loop exactly for
well-formed graphs (proved in `kahnLoop_spec` below). -/
def kahnLoop (g : Graph) : Nat → List String → List (String × Int) →
    List String → List String
  | 0, _, _, result => result
  | _ + 1, [], _, result => result
  | fuel + 1, node :: rest, deg, result =>
    let qd := decDeps rest deg (getDeps g node)
    kahnLoop g fuel qd.1 qd.2 (result ++ [node])

/-- `TopologicalSort` from `internal/toposort`: compute in-degrees, run
Kahn's algorithm, report a cycle if not every node was processed, and
reverse so that dependencies come before dependents. -/
def TopologicalSort (g : Graph) (label : String) : Except String (List String) :=
  match computeInDegree g label with
  | .error e => .error e
  | .ok deg =>
    let result := kahnLoop g (g.length + 1) (initQueue deg) deg []
    if result.length = g.length then
      .ok result.reverse
    else
      .error ("cycle detected in dependencies involving: " ++
        String.intercalate " " ((keys g).filter (fun n => !(result.contains n))))

/-- `Edge g u v`: function `u` contains `<render function="v">`, i.e. the
dependency set of `u` contains `v` (caller → callee). -/
def Edge (g : Graph) (u v : String) : Prop := ∃ deps, (u, deps) ∈ g ∧ v ∈ deps

/-- The graph has no (nonempty) dependency cycle. -/
def Acyclic (g : Graph) : Prop := Irreflexive (Relation.TransGen (Edge g))

/-- Well-formedness that a Go `map[string]map[string]bool` over the declared
and imported functions guarantees: keys are unique, each dependency set has
no duplicates, and every dependency is itself a node of the graph. -/
def WF (g : Graph) : Prop :=
  (keys g).Nodup ∧ ∀ p ∈ g, p.2.Nodup ∧ ∀ d ∈ p.2, d ∈ keys g

/-! Basic lemmas about the association-list operations. -/

theorem getDeg_nil (m : String) : getDeg [] m = 0 := rfl

theorem getDeg_cons (k : String) (w : Int) (rest : List (String × Int)) (m : String) :
    getDeg ((k, w) :: rest) m = if k = m then w else getDeg rest m := by
  by_cases h : k = m
  · subst h
    simp [getDeg, List.find?]
  · have hb : (k == m) = false := by simp [h]
    simp [getDeg, List.find?, hb, h]

theorem getDeg_setDeg (deg : List (String × Int)) (n : String) (v : Int) (m : String) :
    getDeg (setDeg deg n v) m = if m = n then v else getDeg deg m := by
  induction deg with
  | nil =>
    by_cases h : m = n
    · simp [setDeg, getDeg_cons, h]
    · simp [setDeg, getDeg_cons, getDeg_nil, h, Ne.symm h]
  | cons p rest ih =>
    obtain ⟨k, w⟩ := p
    by_cases hk : k = n
    · subst hk
      by_cases h : m = k
      · simp [setDeg, getDeg_cons, h]
      · simp [setDeg, getDeg_cons, h, Ne.symm h]
    · have hb : (k == n) = false := by simp [hk]
      by_cases h : k = m
      · have hmn : ¬ m = n := fun hh => hk (h.trans hh)
        simp [setDeg, hb, getDeg_cons, h, hmn, ih]
      · by_cases h2 : m = n
        · subst h2
          simp [setDeg, hb, getDeg_cons, h, ih]
        · simp [setDeg, hb, getDeg_cons, h, h2, ih]

theorem setDeg_fst_mem (deg : List (String × Int)) (n : String) (v : Int) :
    ∀ q ∈ setDeg deg n v, q.1 = n ∨ q ∈ deg := by
  induction deg with
  | nil =>
    intro q hq
    simp only [setDeg, List.mem_singleton] at hq
    exact Or.inl (by rw [hq])
  | cons p rest ih =>
    obtain ⟨k, w⟩ := p
    intro q hq
    simp only [setDeg] at hq
    by_cases hk : k = n
    · rw [if_pos (show (k == n) = true by simp [hk])] at hq
      rcases List.mem_cons.1 hq with rfl | hq2
      · exact Or.inl rfl
      · exact Or.inr (List.mem_cons_of_mem _ hq2)
    · rw [if_neg (show ¬((k == n) = true) by simp [hk])] at hq
      rcases List.mem_cons.1 hq with rfl | hq2
      · exact Or.inr (List.mem_cons_self _ _)
      · rcases ih q hq2 with h1 | h1
        · exact Or.inl h1
        · exact Or.inr (List.mem_cons_of_mem _ h1)

theorem setDeg_keys_nodup (deg : List (String × Int)) (n : String) (v : Int)
    (h : (deg.map Prod.fst).Nodup) : ((setDeg deg n v).map Prod.fst).Nodup := by
  induction deg with
  | nil => simp [setDeg]
  | cons p rest ih =>
    obtain ⟨k, w⟩ := p
    simp only [setDeg]
    by_cases hk : k = n
    · simpa [hk] using h
    · simp only [beq_iff_eq, hk, if_false, List.map_cons, List.nodup_cons] at h ⊢
      refine ⟨fun hmem => ?_, ih h.2⟩
      rcases List.mem_map.1 hmem with ⟨q, hq, hq1⟩
      rcases setDeg_fst_mem rest n v q hq with h1 | h1
      · exact hk (hq1 ▸ h1 ▸ rfl)
      · exact h.1 (List.mem_map.2 ⟨q, h1, hq1⟩)

theorem setDeg_present (deg : List (String × Int)) (n : String) (v : Int) (m : String)
    (h : ((deg.find? (fun p => p.1 == m)).isSome) ∨ m = n) :
    ((setDeg deg n v).find? (fun p => p.1 == m)).isSome := by
  induction deg with
  | nil =>
    rcases h with h | rfl
    · simp [List.find?] at h
    · simp [setDeg, List.find?]
  | cons p rest ih =>
    obtain ⟨k, w⟩ := p
    simp only [setDeg]
    by_cases hk : k = n
    · subst hk
      simp only [beq_self_eq_true, if_true, List.find?]
      by_cases hm : k = m
      · simp [hm]
      · have : (k == m) = false := by simp [hm]
        rcases h with h | rfl
        · simp only [List.find?, this] at h
          simp [this, h]
        · exact absurd rfl hm
    · simp only [beq_iff_eq, hk, if_false, List.find?]
      by_cases hm : k = m
      · simp [hm]
      · have hne : (k == m) = false := by simp [hm]
        simp only [hne, cond_false]
        apply ih
        rcases h with h | rfl
        · simp only [List.find?, hne, cond_false] at h
          exact Or.inl h
        · exact Or.inr rfl

theorem find?_isSome_iff_mem_keys (g : Graph) (n : String) :
    ((g.find? (fun p => p.1 == n)).isSome) ↔ n ∈ keys g := by
  induction g with
  | nil => simp [List.find?, keys]
  | cons p rest ih =>
    simp only [List.find?, keys, List.map_cons, List.mem_cons]
    by_cases h : p.1 = n
    · simp [h]
    · have : (p.1 == n) = false := by simp [h]
      simp only [this, cond_false]
      rw [ih]
      constructor
      · exact fun hm => Or.inr hm
      · rintro (hm | hm)
        · exact absurd hm.symm h
        · exact hm

/-- First-match lookup in an association list with unique keys finds the
unique entry. -/
theorem find?_eq_of_nodup_keys {β : Type} (l : List (String × β))
    (hnd : (l.map Prod.fst).Nodup) (q : String × β) (hq : q ∈ l) :
    l.find? (fun p => p.1 == q.1) = some q := by
  induction l with
  | nil => simp at hq
  | cons p rest ih =>
    simp only [List.map_cons, List.nodup_cons] at hnd
    rcases List.mem_cons.1 hq with rfl | hq2
    · exact List.find?_cons_of_pos _ (by simp)
    · have hne : p.1 ≠ q.1 := by
        intro hh
        exact hnd.1 (List.mem_map.2 ⟨q, hq2, hh.symm⟩)
      rw [List.find?_cons_of_neg _ (by simp [hne]), ih hnd.2 hq2]

theorem getDeps_cons (k : String) (deps : List String) (rest : Graph) (n : String) :
    getDeps ((k, deps) :: rest) n = if k = n then deps else getDeps rest n := by
  by_cases h : k = n
  · subst h
    simp [getDeps, List.find?]
  · have hb : (k == n) = false := by simp [h]
    simp [getDeps, List.find?, hb, h]

theorem mem_getDeps_iff_edge (g : Graph) (hkeys : (keys g).Nodup) (u v : String) :
    v ∈ getDeps g u ↔ Edge g u v := by
  constructor
  · intro hv
    unfold getDeps at hv
    rcases hfind : g.find? (fun p => p.1 == u) with - | p
    · rw [hfind] at hv
      simp at hv
    · rw [hfind] at hv
      have hmem := List.mem_of_find?_eq_some hfind
      have hpred := List.find?_some hfind
      have : p.1 = u := by simpa using hpred
      exact ⟨p.2, by rw [← this]; exact hmem, hv⟩
  · rintro ⟨deps, hmem, hv⟩
    have := find?_eq_of_nodup_keys g hkeys (u, deps) hmem
    unfold getDeps
    rw [this]
    exact hv

/-- `unproc g result d`: the number of graph entries that depend on `d` and
have not yet been processed — the value Kahn's algorithm keeps in
`inDegree[d]`. -/
def unproc (g : Graph) (result : List String) (d : String) : Nat :=
  List.countP (fun p => decide (d ∈ p.2) && decide (p.1 ∉ result)) g

theorem unproc_append (g : Graph) (result : List String) (node d : String) :
    unproc g (result ++ [node]) d +
      List.countP (fun p => decide (d ∈ p.2) && (p.1 == node) && decide (p.1 ∉ result)) g =
      unproc g result d := by
  induction g with
  | nil => simp [unproc]
  | cons p rest ih =>
    have hhead :
        (if (decide (d ∈ p.2) && decide (p.1 ∉ result ++ [node])) = true then 1 else 0) +
          (if (decide (d ∈ p.2) && (p.1 == node) && decide (p.1 ∉ result)) = true
            then 1 else 0) =
          (if (decide (d ∈ p.2) && decide (p.1 ∉ result)) = true then 1 else 0) := by
      by_cases h1 : d ∈ p.2 <;> by_cases h2 : p.1 = node <;> by_cases h3 : p.1 ∈ result <;>
        simp [h1, h2, h3]
    simp only [unproc, List.countP_cons] at ih ⊢
    omega

theorem countP_node_entry (g : Graph) (hkeys : (keys g).Nodup) (result : List String)
    (node d : String) (hnr : node ∉ result) :
    List.countP (fun p => decide (d ∈ p.2) && (p.1 == node) && decide (p.1 ∉ result)) g =
      if d ∈ getDeps g node then 1 else 0 := by
  induction g with
  | nil => simp [List.countP_nil, getDeps, List.find?]
  | cons p rest ih =>
    obtain ⟨k, deps⟩ := p
    simp only [keys, List.map_cons, List.nodup_cons] at hkeys
    rw [List.countP_cons, getDeps_cons]
    by_cases h2 : k = node
    · subst h2
      have hzero :
          List.countP (fun p => decide (d ∈ p.2) && (p.1 == k) && decide (p.1 ∉ result))
            rest = 0 := by
        rw [List.countP_eq_zero]
        intro q hq
        have : q.1 ≠ k := by
          intro hh
          exact hkeys.1 (by rw [← hh]; exact List.mem_map.2 ⟨q, hq, rfl⟩)
        simp [this]
      rw [hzero, if_pos rfl]
      by_cases h1 : d ∈ deps <;> simp [h1, hnr]
    · rw [ih hkeys.2, if_neg h2]
      simp [h2]

theorem unproc_step (g : Graph) (hkeys : (keys g).Nodup) (result : List String)
    (node d : String) (hnr : node ∉ result) :
    unproc g (result ++ [node]) d + (if d ∈ getDeps g node then 1 else 0) =
      unproc g result d := by
  rw [← countP_node_entry g hkeys result node d hnr]
  exact unproc_append g result node d

theorem unproc_mono (g : Graph) (result : List String) (node d : String) :
    unproc g (result ++ [node]) d ≤ unproc g result d := by
  have := unproc_append g result node d
  omega

theorem unproc_eq_zero_iff (g : Graph) (result : List String) (v : String) :
    unproc g result v = 0 ↔ ∀ u, Edge g u v → u ∈ result := by
  unfold unproc
  rw [List.countP_eq_zero]
  constructor
  · rintro h u ⟨deps, hmem, hv⟩
    have := h (u, deps) hmem
    by_contra hu
    simp [hv, hu] at this
  · intro h p hp
    by_cases h1 : v ∈ p.2
    · have : p.1 ∈ result := h p.1 ⟨p.2, hp, h1⟩
      simp [this]
    · simp [h1]

/-! Behaviour of the inner decrement loop. -/

theorem decDeps_queue (deps : List String) (hnd : deps.Nodup) :
    ∀ (queue : List String) (deg : List (String × Int)),
      (decDeps queue deg deps).1 =
        queue ++ deps.filter (fun dep => decide (getDeg deg dep = 1)) := by
  induction deps with
  | nil => intro queue deg; simp [decDeps]
  | cons dep rest ih =>
    intro queue deg
    simp only [List.nodup_cons] at hnd
    have hcongr : ∀ x ∈ rest,
        decide (getDeg (setDeg deg dep (getDeg deg dep - 1)) x = 1) =
          decide (getDeg deg x = 1) := by
      intro x hx
      rw [getDeg_setDeg, if_neg (show ¬ x = dep from fun hh => hnd.1 (by rw [← hh]; exact hx))]
    simp only [decDeps]
    by_cases h : getDeg deg dep - 1 = 0
    · rw [if_pos h, ih hnd.2, List.filter_congr hcongr, List.filter_cons,
        if_pos (by simp; omega)]
      simp
    · rw [if_neg h, ih hnd.2, List.filter_congr hcongr, List.filter_cons,
        if_neg (by simp; omega)]

theorem decDeps_deg (deps : List String) (hnd : deps.Nodup) :
    ∀ (queue : List String) (deg : List (String × Int)) (x : String),
      getDeg (decDeps queue deg deps).2 x =
        if x ∈ deps then getDeg deg x - 1 else getDeg deg x := by
  induction deps with
  | nil => intro queue deg x; simp [decDeps]
  | cons dep rest ih =>
    intro queue deg x
    simp only [List.nodup_cons] at hnd
    have hrec : ∀ q, getDeg (decDeps q (setDeg deg dep (getDeg deg dep - 1)) rest).2 x =
        if x ∈ rest then getDeg (setDeg deg dep (getDeg deg dep - 1)) x - 1
        else getDeg (setDeg deg dep (getDeg deg dep - 1)) x :=
      fun q => ih hnd.2 q _ x
    have hfinal : ∀ q, getDeg (decDeps q (setDeg deg dep (getDeg deg dep - 1)) rest).2 x =
        if x ∈ dep :: rest then getDeg deg x - 1 else getDeg deg x := by
      intro q
      rw [hrec, getDeg_setDeg]
      by_cases h1 : x = dep
      · subst h1
        simp [hnd.1]
      · rw [if_neg h1]
        by_cases h2 : x ∈ rest
        · rw [if_pos h2, if_pos (List.mem_cons_of_mem _ h2)]
        · rw [if_neg h2, if_neg (by simp [h1, h2])]
    simp only [decDeps]
    by_cases hq : getDeg deg dep - 1 = 0
    · rw [if_pos hq]
      exact hfinal _
    · rw [if_neg hq]
      exact hfinal _

/-! Behaviour of the in-degree initialization pass. -/

theorem bumpDeps_ok (g : Graph) (label node : String) (deps : List String)
    (hsub : ∀ dep ∈ deps, dep ∈ keys g) (hnd : deps.Nodup) :
    ∀ deg, ∃ deg', bumpDeps g label node deps deg = .ok deg' ∧
      (∀ x, getDeg deg' x = getDeg deg x + (if x ∈ deps then 1 else 0)) ∧
      ((deg.map Prod.fst).Nodup → (deg'.map Prod.fst).Nodup) ∧
      (∀ q ∈ deg', q.1 ∈ deps ∨ q ∈ deg) ∧
      (∀ m, (deg.find? (fun p => p.1 == m)).isSome →
        (deg'.find? (fun p => p.1 == m)).isSome) := by
  induction deps with
  | nil =>
    intro deg
    exact ⟨deg, rfl, by simp, id, fun q hq => Or.inr hq, fun m h => h⟩
  | cons dep rest ih =>
    intro deg
    simp only [List.nodup_cons] at hnd
    have hdep := hsub dep (List.mem_cons_self _ _)
    set deg1 := setDeg deg dep (getDeg deg dep + 1) with hdeg1
    obtain ⟨deg', heq, hget, hnodup, hmem, hpres⟩ :=
      ih (fun d hd => hsub d (List.mem_cons_of_mem _ hd)) hnd.2 deg1
    refine ⟨deg', ?_, ?_, ?_, ?_, ?_⟩
    · simp only [bumpDeps, if_pos ((find?_isSome_iff_mem_keys g dep).2 hdep)]
      exact heq
    · intro x
      rw [hget x, hdeg1, getDeg_setDeg]
      by_cases h1 : x = dep
      · subst h1
        rw [if_pos rfl, if_pos (List.mem_cons_self _ _), if_neg (fun hh => hnd.1 hh)]
        omega
      · rw [if_neg h1]
        by_cases h2 : x ∈ rest
        · rw [if_pos h2, if_pos (List.mem_cons_of_mem _ h2)]
        · rw [if_neg h2, if_neg (by simp [h1, h2])]
    · intro hn
      exact hnodup (setDeg_keys_nodup _ _ _ hn)
    · intro q hq
      rcases hmem q hq with h | h
      · exact Or.inl (List.mem_cons_of_mem _ h)
      · rcases setDeg_fst_mem deg dep _ q h with h1 | h1
        · exact Or.inl (h1 ▸ List.mem_cons_self _ _)
        · exact Or.inr h1
    · intro m hm
      exact hpres m (setDeg_present _ _ _ _ (Or.inl hm))

theorem computeInDegreeAux_ok (g : Graph) (label : String) (rest : Graph)
    (hrest : ∀ p ∈ rest, p.2.Nodup ∧ (∀ d ∈ p.2, d ∈ keys g)) :
    ∀ deg, ∃ deg', computeInDegreeAux g label rest deg = .ok deg' ∧
      (∀ x, getDeg deg' x =
        getDeg deg x + List.countP (fun p => decide (x ∈ p.2)) rest) ∧
      ((deg.map Prod.fst).Nodup → (deg'.map Prod.fst).Nodup) ∧
      (∀ q ∈ deg', q.1 ∈ keys g ∨ (∃ p ∈ rest, q.1 = p.1) ∨ q ∈ deg) ∧
      (∀ m, ((deg.find? (fun p => p.1 == m)).isSome ∨ (∃ p ∈ rest, p.1 = m)) →
        (deg'.find? (fun p => p.1 == m)).isSome) := by
  induction rest with
  | nil =>
    intro deg
    refine ⟨deg, rfl, by simp, id, fun q hq => Or.inr (Or.inr hq), ?_⟩
    intro m hm
    rcases hm with h | ⟨p, hp, -⟩
    · exact h
    · simp at hp
  | cons entry tail ih =>
    intro deg
    obtain ⟨node, deps⟩ := entry
    have hhead := hrest (node, deps) (List.mem_cons_self _ _)
    set deg0 := if (deg.find? (fun p => p.1 == node)).isSome then deg
                else setDeg deg node 0 with hdeg0
    have hget0 : ∀ x, getDeg deg0 x = getDeg deg x := by
      intro x
      rw [hdeg0]
      split
      · rfl
      · next hnone =>
        rw [getDeg_setDeg]
        by_cases h : x = node
        · subst h
          rw [if_pos rfl]
          unfold getDeg
          rcases hfind : deg.find? (fun p => p.1 == x) with - | p
          · rw [hfind]
          · exact absurd (by rw [hfind]; rfl) hnone
        · rw [if_neg h]
    have hnodup0 : (deg.map Prod.fst).Nodup → (deg0.map Prod.fst).Nodup := by
      intro hn
      rw [hdeg0]
      split
      · exact hn
      · exact setDeg_keys_nodup _ _ _ hn
    have hmem0 : ∀ q ∈ deg0, q.1 = node ∨ q ∈ deg := by
      intro q hq
      rw [hdeg0] at hq
      split at hq
      · exact Or.inr hq
      · exact setDeg_fst_mem _ _ _ q hq
    have hpres0 : ∀ m, ((deg.find? (fun p => p.1 == m)).isSome ∨ m = node) →
        (deg0.find? (fun p => p.1 == m)).isSome := by
      intro m hm
      rw [hdeg0]
      split
      · next hsome =>
        rcases hm with h | rfl
        · exact h
        · exact hsome
      · exact setDeg_present _ _ _ _ hm
    obtain ⟨deg1, heq1, hget1, hnodup1, hmem1, hpres1⟩ :=
      bumpDeps_ok g label node deps hhead.2 hhead.1 deg0
    obtain ⟨deg', heq', hget', hnodup', hmem', hpres'⟩ :=
      ih (fun p hp => hrest p (List.mem_cons_of_mem _ hp)) deg1
    refine ⟨deg', ?_, ?_, ?_, ?_, ?_⟩
    · simp only [computeInDegreeAux]
      rw [← hdeg0, heq1]
      exact heq'
    · intro x
      rw [hget' x, hget1 x, hget0 x, List.countP_cons]
      by_cases h : x ∈ deps
      · simp [h]
        omega
      · simp [h]
    · intro hn
      exact hnodup' (hnodup1 (hnodup0 hn))
    · intro q hq
      rcases hmem' q hq with h | h | h
      · exact Or.inl h
      · rcases h with ⟨p, hp, hqp⟩
        exact Or.inr (Or.inl ⟨p, List.mem_cons_of_mem _ hp, hqp⟩)
      · rcases hmem1 q h with h1 | h1
        · exact Or.inl (hhead.2 _ h1)
        · rcases hmem0 q h1 with h2 | h2
          · exact Or.inr (Or.inl ⟨(node, deps), List.mem_cons_self _ _, h2⟩)
          · exact Or.inr (Or.inr h2)
    · intro m hm
      rcases hm with h | ⟨p, hp, hpm⟩
      · exact hpres' m (Or.inl (hpres1 m (hpres0 m (Or.inl h))))
      · rcases List.mem_cons.1 hp with rfl | hp2
        · exact hpres' m (Or.inl (hpres1 m (hpres0 m (Or.inr hpm.symm))))
        · exact hpres' m (Or.inr ⟨p, hp2, hpm⟩)

theorem computeInDegree_spec (g : Graph) (label : String) (hwf : WF g) :
    ∃ deg0, computeInDegree g label = .ok deg0 ∧
      (∀ x, getDeg deg0 x = (unproc g [] x : Int)) ∧
      (deg0.map Prod.fst).Nodup ∧
      (∀ q ∈ deg0, q.1 ∈ keys g) ∧
      (∀ m ∈ keys g, (deg0.find? (fun p => p.1 == m)).isSome) := by
  obtain ⟨deg0, heq, hget, hnodup, hmem, hpres⟩ :=
    computeInDegreeAux_ok g label g (fun p hp => hwf.2 p hp) []
  refine ⟨deg0, heq, ?_, hnodup (by simp), ?_, ?_⟩
  · intro x
    rw [hget x, getDeg_nil]
    have : unproc g [] x = List.countP (fun p => decide (x ∈ p.2)) g := by
      unfold unproc
      apply List.countP_congr
      intro p hp
      simp
    rw [this]
    simp
  · intro q hq
    rcases hmem q hq with h | h | h
    · exact h
    · rcases h with ⟨p, hp, hqp⟩
      rw [hqp]
      exact List.mem_map.2 ⟨p, hp, rfl⟩
    · simp at h
  · intro m hm
    apply hpres
    right
    rcases List.mem_map.1 hm with ⟨p, hp, hpm⟩
    exact ⟨p, hp, hpm⟩

/-! Behaviour of the initial queue construction. -/

theorem initQueue_nodup (deg : List (String × Int)) (h : (deg.map Prod.fst).Nodup) :
    (initQueue deg).Nodup := by
  unfold initQueue
  have hsub : (deg.filter (fun p => p.2 == 0)).map Prod.fst |>.Sublist (deg.map Prod.fst) :=
    (List.filter_sublist deg).map Prod.fst
  exact h.sublist hsub

theorem mem_initQueue (deg : List (String × Int)) (d : String) :
    d ∈ initQueue deg ↔ ∃ q ∈ deg, q.1 = d ∧ q.2 = 0 := by
  unfold initQueue
  simp only [List.mem_map, List.mem_filter]
  constructor
  · rintro ⟨q, ⟨hq, hq2⟩, rfl⟩
    exact ⟨q, hq, rfl, by simpa using hq2⟩
  · rintro ⟨q, hq, rfl, hq2⟩
    exact ⟨q, ⟨hq, by simpa using hq2⟩, rfl⟩

theorem mem_initQueue_of_present (deg : List (String × Int)) (d : String)
    (hpres : (deg.find? (fun p => p.1 == d)).isSome) (hval : getDeg deg d = 0) :
    d ∈ initQueue deg := by
  rcases hfind : deg.find? (fun p => p.1 == d) with - | q
  · rw [hfind] at hpres
    simp at hpres
  · have hq1 : q.1 = d := by simpa using List.find?_some hfind
    have hq2 : q.2 = 0 := by
      unfold getDeg at hval
      rw [hfind] at hval
      exact hval
    exact (mem_initQueue deg d).2 ⟨q, List.mem_of_find?_eq_some hfind, hq1, hq2⟩

theorem getDeg_of_mem_initQueue (deg : List (String × Int))
    (hnd : (deg.map Prod.fst).Nodup) (d : String) (hd : d ∈ initQueue deg) :
    getDeg deg d = 0 := by
  rcases (mem_initQueue deg d).1 hd with ⟨q, hq, hq1, hq2⟩
  unfold getDeg
  rw [← hq1, find?_eq_of_nodup_keys deg hnd q hq]
  exact hq2

theorem getDeps_wf (g : Graph) (hwf : WF g) (n : String) :
    (getDeps g n).Nodup ∧ ∀ d ∈ getDeps g n, d ∈ keys g := by
  rcases hfind : g.find? (fun p => p.1 == n) with - | p
  · unfold getDeps
    rw [hfind]
    simp
  · unfold getDeps
    rw [hfind]
    exact hwf.2 p (List.mem_of_find?_eq_some hfind)

/-- The invariant maintained by the Kahn processing loop. -/
structure Inv (g : Graph) (queue : List String) (deg : List (String × Int))
    (result : List String) : Prop where
  hdeg : ∀ d ∈ keys g, getDeg deg d = (unproc g result d : Int)
  hnodup : (result ++ queue).Nodup
  hsub : ∀ n ∈ result ++ queue, n ∈ keys g
  hq0 : ∀ d ∈ queue, unproc g result d = 0
  hr0 : ∀ d ∈ result, unproc g result d = 0
  hres : ∀ v ∈ result, ∀ u, Edge g u v → u ∈ result
  hord : result.Pairwise (fun a b => ¬ Edge g b a)
  hcomp : ∀ d ∈ keys g, unproc g result d = 0 → d ∈ result ∨ d ∈ queue

theorem inv_step (g : Graph) (hwf : WF g) (node : String) (rest : List String)
    (deg : List (String × Int)) (result : List String)
    (hinv : Inv g (node :: rest) deg result) :
    Inv g (decDeps rest deg (getDeps g node)).1 (decDeps rest deg (getDeps g node)).2
      (result ++ [node]) := by
  obtain ⟨hdeg, hnodup, hsub, hq0, hr0, hres, hord, hcomp⟩ := hinv
  have hdepswf := getDeps_wf g hwf node
  set deps := getDeps g node with hdepsdef
  have hnr : node ∉ result := by
    have hd := List.disjoint_of_nodup_append hnodup
    intro hc
    exact hd hc (List.mem_cons_self _ _)
  have ustep : ∀ d, unproc g (result ++ [node]) d + (if d ∈ deps then 1 else 0) =
      unproc g result d := fun d => unproc_step g hwf.1 result node d hnr
  have hqeq : (decDeps rest deg deps).1 =
      rest ++ deps.filter (fun dep => decide (getDeg deg dep = 1)) :=
    decDeps_queue deps hdepswf.1 rest deg
  have hdeq : ∀ x, getDeg (decDeps rest deg deps).2 x =
      if x ∈ deps then getDeg deg x - 1 else getDeg deg x :=
    fun x => decDeps_deg deps hdepswf.1 rest deg x
  have hnewly : ∀ d, d ∈ deps.filter (fun dep => decide (getDeg deg dep = 1)) ↔
      d ∈ deps ∧ unproc g result d = 1 := by
    intro d
    rw [List.mem_filter]
    constructor
    · rintro ⟨hd, hd1⟩
      have hk : d ∈ keys g := hdepswf.2 d hd
      have := hdeg d hk
      simp only [decide_eq_true_eq] at hd1
      refine ⟨hd, ?_⟩
      omega
    · rintro ⟨hd, hd1⟩
      have hk : d ∈ keys g := hdepswf.2 d hd
      have := hdeg d hk
      refine ⟨hd, by simp only [decide_eq_true_eq]; omega⟩
  constructor
  · -- hdeg
    intro d hd
    rw [hdeq d]
    have := ustep d
    have hval := hdeg d hd
    by_cases h : d ∈ deps
    · rw [if_pos h]
      rw [if_pos h] at this
      omega
    · rw [if_neg h]
      rw [if_neg h] at this
      omega
  · -- hnodup
    rw [hqeq]
    have hshape : (result ++ [node]) ++
        (rest ++ deps.filter (fun dep => decide (getDeg deg dep = 1))) =
        (result ++ node :: rest) ++ deps.filter (fun dep => decide (getDeg deg dep = 1)) := by
      simp
    rw [hshape, List.nodup_append]
    refine ⟨hnodup, (hdepswf.1).filter _, ?_⟩
    intro a ha hafilter
    have h1 := ((hnewly a).1 hafilter).2
    rcases List.mem_append.1 ha with h | h
    · have := hr0 a h
      omega
    · have := hq0 a h
      omega
  · -- hsub
    intro n hn
    rw [hqeq] at hn
    rcases List.mem_append.1 hn with h | h
    · rcases List.mem_append.1 h with h2 | h2
      · exact hsub n (List.mem_append_left _ h2)
      · rcases List.mem_singleton.1 h2 with rfl
        exact hsub n (List.mem_append_right _ (List.mem_cons_self _ _))
    · rcases List.mem_append.1 h with h2 | h2
      · exact hsub n (List.mem_append_right _ (List.mem_cons_of_mem _ h2))
      · exact hdepswf.2 n (List.mem_of_mem_filter h2)
  · -- hq0
    intro d hd
    rw [hqeq] at hd
    rcases List.mem_append.1 hd with h | h
    · have h0 := hq0 d (List.mem_cons_of_mem _ h)
      have := unproc_mono g result node d
      omega
    · obtain ⟨hmem, h1⟩ := (hnewly d).1 h
      have := ustep d
      rw [if_pos hmem] at this
      omega
  · -- hr0
    intro d hd
    rcases List.mem_append.1 hd with h | h
    · have h0 := hr0 d h
      have := unproc_mono g result node d
      omega
    · have hdn : d = node := List.mem_singleton.1 h
      have h0 := hq0 node (List.mem_cons_self _ _)
      have := unproc_mono g result node node
      rw [hdn]
      omega
  · -- hres
    intro v hv u hedge
    rcases List.mem_append.1 hv with h | h
    · exact List.mem_append_left _ (hres v h u hedge)
    · rcases List.mem_singleton.1 h with rfl
      have h0 := hq0 v (List.mem_cons_self _ _)
      exact List.mem_append_left _ ((unproc_eq_zero_iff g result v).1 h0 u hedge)
  · -- hord
    rw [List.pairwise_append]
    refine ⟨hord, List.pairwise_singleton _ _, ?_⟩
    intro a ha b hb
    rcases List.mem_singleton.1 hb with rfl
    intro hedge
    exact hnr (hres a ha b hedge)
  · -- hcomp
    intro d hd h0
    have := ustep d
    by_cases h : d ∈ deps
    · rw [if_pos h] at this
      right
      rw [hqeq]
      refine List.mem_append_right _ ((hnewly d).2 ⟨h, by omega⟩)
    · rw [if_neg h] at this
      rcases hcomp d hd (by omega) with h2 | h2
      · exact Or.inl (List.mem_append_left _ h2)
      · rcases List.mem_cons.1 h2 with rfl | h3
        · exact Or.inl (List.mem_append_right _ (List.mem_singleton_self _))
        · right
          rw [hqeq]
          exact List.mem_append_left _ h3

theorem result_length_le (g : Graph) (result queue : List String)
    (hnodup : (result ++ queue).Nodup) (hsub : ∀ n ∈ result ++ queue, n ∈ keys g) :
    result.length ≤ g.length := by
  have hn : result.Nodup := (List.nodup_append.1 hnodup).1
  have hs : result ⊆ keys g := fun n hn => hsub n (List.mem_append_left _ hn)
  have := (List.subperm_of_subset hn hs).length_le
  simpa [keys] using this

theorem kahnLoop_spec (g : Graph) (hwf : WF g) :
    ∀ (fuel : Nat) (queue : List String) (deg : List (String × Int))
      (result : List String), Inv g queue deg result →
      g.length + 1 - result.length ≤ fuel →
      (kahnLoop g fuel queue deg result).Nodup ∧
      (∀ n ∈ kahnLoop g fuel queue deg result, n ∈ keys g) ∧
      (kahnLoop g fuel queue deg result).Pairwise (fun a b => ¬ Edge g b a) ∧
      (∀ v ∈ kahnLoop g fuel queue deg result, ∀ u, Edge g u v →
        u ∈ kahnLoop g fuel queue deg result) ∧
      (∀ d ∈ keys g, unproc g (kahnLoop g fuel queue deg result) d = 0 →
        d ∈ kahnLoop g fuel queue deg result) := by
  intro fuel
  induction fuel with
  | zero =>
    intro queue deg result hinv hfuel
    exfalso
    have := result_length_le g result queue hinv.hnodup hinv.hsub
    omega
  | succ fuel ih =>
    intro queue deg result hinv hfuel
    cases queue with
    | nil =>
      simp only [kahnLoop]
      refine ⟨(List.nodup_append.1 hinv.hnodup).1,
        fun n hn => hinv.hsub n (List.mem_append_left _ hn), hinv.hord,
        fun v hv u he => hinv.hres v hv u he, ?_⟩
      intro d hd h0
      rcases hinv.hcomp d hd h0 with h | h
      · exact h
      · simp at h
    | cons node rest =>
      have hstep := inv_step g hwf node rest deg result hinv
      have hlen := result_length_le g result (node :: rest) hinv.hnodup hinv.hsub
      have hfuel' : g.length + 1 - (result ++ [node]).length ≤ fuel := by
        simp only [List.length_append, List.length_singleton]
        omega
      simpa only [kahnLoop] using ih _ _ _ hstep hfuel'

/-- A finite nonempty set of nodes in which every node has a caller inside the
set yields a dependency cycle (pigeonhole over iterated predecessors). -/
theorem cycle_of_pred (g : Graph) (U : List String) (hne : U ≠ [])
    (hpred : ∀ d ∈ U, ∃ u, u ∈ U ∧ Edge g u d) :
    ∃ n, Relation.TransGen (Edge g) n n := by
  classical
  obtain ⟨d0, hd0⟩ := List.exists_mem_of_ne_nil U hne
  choose f hf1 hf2 using hpred
  set F : String → String := fun d => if h : d ∈ U then f d h else d0 with hF
  have hFmem : ∀ d ∈ U, F d ∈ U := by
    intro d hd
    simp only [hF]
    rw [dif_pos hd]
    exact hf1 d hd
  have hFedge : ∀ d ∈ U, Edge g (F d) d := by
    intro d hd
    simp only [hF]
    rw [dif_pos hd]
    exact hf2 d hd
  set seq : Nat → String := fun k => F^[k] d0 with hseq
  have hseqmem : ∀ k, seq k ∈ U := by
    intro k
    induction k with
    | zero => simpa [hseq] using hd0
    | succ k ihk =>
      have : seq (k + 1) = F (seq k) := by
        simp only [hseq]
        exact Function.iterate_succ_apply' F k d0
      rw [this]
      exact hFmem _ ihk
  have hseqedge : ∀ k, Edge g (seq (k + 1)) (seq k) := by
    intro k
    have heq : seq (k + 1) = F (seq k) := by
      simp only [hseq]
      exact Function.iterate_succ_apply' F k d0
    rw [heq]
    exact hFedge _ (hseqmem k)
  have hchain : ∀ i j, i < j → Relation.TransGen (Edge g) (seq j) (seq i) := by
    intro i j hij
    induction j with
    | zero => omega
    | succ j ihj =>
      rcases Nat.lt_succ_iff_lt_or_eq.1 hij with h | h
      · exact Relation.TransGen.head (hseqedge j) (ihj h)
      · rw [← h]
        exact Relation.TransGen.single (hseqedge i)
  have hmaps : ∀ k ∈ Finset.range (U.length + 1), seq k ∈ U.toFinset :=
    fun k _ => List.mem_toFinset.2 (hseqmem k)
  have hcard : U.toFinset.card < (Finset.range (U.length + 1)).card := by
    rw [Finset.card_range]
    exact Nat.lt_succ_of_le U.toFinset_card_le
  obtain ⟨i, hi, j, hj, hne2, heq⟩ :=
    Finset.exists_ne_map_eq_of_card_lt_of_maps_to hcard hmaps
  rcases Nat.lt_or_ge i j with h | h
  · refine ⟨seq i, ?_⟩
    have := hchain i j h
    rwa [← heq] at this
  · have h2 : j < i := Nat.lt_of_le_of_ne h (Ne.symm hne2)
    refine ⟨seq j, ?_⟩
    have := hchain j i h2
    rwa [heq] at this

/-- C1: for every well-formed acyclic function dependency graph, `TopologicalSort`
succeeds and returns every node exactly once, with each render target (callee)
strictly before its caller. -/
theorem topologicalSort_correct (g : Graph) (label : String)
    (hwf : WF g) (hacyc : Acyclic g) :
    ∃ order, TopologicalSort g label = .ok order ∧
      order.Nodup ∧ (∀ n, n ∈ order ↔ n ∈ keys g) ∧
      ∀ u v, Edge g u v → order.indexOf v < order.indexOf u := by
  obtain ⟨deg0, heq, hget, hnodup0, hmem0, hpres0⟩ := computeInDegree_spec g label hwf
  have hinv : Inv g (initQueue deg0) deg0 [] := by
    constructor
    · intro d _
      exact hget d
    · simpa using initQueue_nodup deg0 hnodup0
    · intro n hn
      simp only [List.nil_append] at hn
      rcases (mem_initQueue deg0 n).1 hn with ⟨q, hq, hq1, -⟩
      exact hq1 ▸ hmem0 q hq
    · intro d hd
      have h0 : getDeg deg0 d = 0 := getDeg_of_mem_initQueue deg0 hnodup0 d hd
      have := hget d
      omega
    · intro d hd
      simp at hd
    · intro v hv
      simp at hv
    · simp
    · intro d hd h0
      right
      apply mem_initQueue_of_present deg0 d (hpres0 d hd)
      rw [hget d, h0]
      simp
  have hloop := kahnLoop_spec g hwf (g.length + 1) (initQueue deg0) deg0 [] hinv (by simp)
  set R := kahnLoop g (g.length + 1) (initQueue deg0) deg0 [] with hR
  obtain ⟨hRnodup, hRsub, hRord, hRres, hRcomp⟩ := hloop
  have hall : ∀ d ∈ keys g, d ∈ R := by
    by_contra hc
    push_neg at hc
    obtain ⟨d, hd, hdR⟩ := hc
    set U := (keys g).filter (fun n => decide (n ∉ R)) with hU
    have hUne : U ≠ [] := by
      have hdu : d ∈ U := List.mem_filter.2 ⟨hd, by simpa using hdR⟩
      intro h
      rw [h] at hdu
      simp at hdu
    have hUpred : ∀ x ∈ U, ∃ u, u ∈ U ∧ Edge g u x := by
      intro x hx
      obtain ⟨hxk, hxR⟩ := List.mem_filter.1 hx
      have hxR2 : x ∉ R := by simpa using hxR
      have hnz : unproc g R x ≠ 0 := fun h0 => hxR2 (hRcomp x hxk h0)
      have hnall : ¬ ∀ u, Edge g u x → u ∈ R :=
        fun hall2 => hnz ((unproc_eq_zero_iff g R x).2 hall2)
      push_neg at hnall
      obtain ⟨u, hedge, huR⟩ := hnall
      have huk : u ∈ keys g := by
        obtain ⟨deps, hmem, -⟩ := hedge
        exact List.mem_map.2 ⟨(u, deps), hmem, rfl⟩
      exact ⟨u, List.mem_filter.2 ⟨huk, by simpa using huR⟩, hedge⟩
    obtain ⟨n, hcyc⟩ := cycle_of_pred g U hUne hUpred
    exact hacyc n hcyc
  have hlen : R.length = g.length := by
    have h1 : R.length ≤ (keys g).length :=
      (List.subperm_of_subset hRnodup (fun n hn => hRsub n hn)).length_le
    have h2 : (keys g).length ≤ R.length :=
      (List.subperm_of_subset hwf.1 (fun n hn => hall n hn)).length_le
    have h3 : (keys g).length = g.length := by simp [keys]
    omega
  have horder : R.reverse.Pairwise (fun a b => ¬ Edge g a b) := by
    rw [List.pairwise_reverse]
    exact hRord
  refine ⟨R.reverse, ?_, List.nodup_reverse.2 hRnodup, ?_, ?_⟩
  · unfold TopologicalSort
    rw [heq]
    show (if R.length = g.length then Except.ok R.reverse
      else Except.error ("cycle detected in dependencies involving: " ++
        String.intercalate " " ((keys g).filter (fun n => !(R.contains n))))) =
      Except.ok R.reverse
    rw [if_pos hlen]
  · intro n
    rw [List.mem_reverse]
    exact ⟨fun h => hRsub n h, fun h => hall n h⟩
  · intro u v hedge
    have hvk : v ∈ keys g := by
      obtain ⟨deps, hmem, hv⟩ := hedge
      exact (hwf.2 _ hmem).2 v hv
    have huk : u ∈ keys g := by
      obtain ⟨deps, hmem, -⟩ := hedge
      exact List.mem_map.2 ⟨(u, deps), hmem, rfl⟩
    have hvm : v ∈ R.reverse := List.mem_reverse.2 (hall v hvk)
    have hum : u ∈ R.reverse := List.mem_reverse.2 (hall u huk)
    have hneq : u ≠ v := by
      rintro rfl
      exact hacyc u (Relation.TransGen.single hedge)
    have hiv := List.indexOf_lt_length.2 hvm
    have hiu := List.indexOf_lt_length.2 hum
    by_contra hlt
    push_neg at hlt
    have hne3 : R.reverse.indexOf u ≠ R.reverse.indexOf v := by
      intro hcontra
      apply hneq
      have h1 := List.getElem_indexOf hiu
      have h2 := List.getElem_indexOf hiv
      rw [← h1, ← h2]
      congr 1
    have hlt2 : R.reverse.indexOf u < R.reverse.indexOf v :=
      Nat.lt_of_le_of_ne hlt hne3
    have := List.pairwise_iff_getElem.1 horder _ _ hiu hiv hlt2
    rw [List.getElem_indexOf hiu, List.getElem_indexOf hiv] at this
    exact this hedge

/-- A small concrete dependency graph: function `a` renders function `b`. -/
def demoGraph : Graph := [("a", ["b"]), ("b", [])]

theorem demoGraph_edge : ∀ u v, Edge demoGraph u v → u = "a" ∧ v = "b" := by
  rintro u v ⟨deps, hmem, hv⟩
  rcases List.mem_cons.1 hmem with h | h
  · cases h
    simp only [List.mem_singleton] at hv
    exact ⟨rfl, hv⟩
  · rcases List.mem_singleton.1 h with h2
    cases h2
    simp at hv

theorem demoGraph_acyclic : Acyclic demoGraph := by
  intro x hx
  have key : ∀ y z, Relation.TransGen (Edge demoGraph) y z → y = "a" ∧ z = "b" := by
    intro y z h
    induction h with
    | single h1 => exact demoGraph_edge _ _ h1
    | tail _ hlast ih =>
      have h2 := demoGraph_edge _ _ hlast
      rw [ih.2] at h2
      exact absurd h2.1 (by decide)
  have hxx := key x x hx
  rw [hxx.1] at hxx
  exact absurd hxx.2 (by decide)

/-- Witness for C1 at the concrete graph `demoGraph`. -/
theorem topologicalSort_correct_witness :
    ∃ order, TopologicalSort demoGraph "function" = .ok order ∧
      order.Nodup ∧ (∀ n, n ∈ order ↔ n ∈ keys demoGraph) ∧
      ∀ u v, Edge demoGraph u v → order.indexOf v < order.indexOf u :=
  topologicalSort_correct demoGraph "function" ⟨by decide, by decide⟩ demoGraph_acyclic

end Toposort

/-! # Typechecker: type expressions and unification

Embedding of `typechecker.unify` (`src/unnamed/part_000`, second copy, the
`typeChecker` with node positions; the first copy is identical line for line).
Go links `*TypeVar` cells and reassigns `*ObjectType.Fields` by in-place
mutation; here those two mutable cell kinds carry a numeric identity and
their state lives in an explicit `Store` threaded through `unify`.  -/

/-- Replace the entry for `k` in an association list, appending it if absent
(a Go map write). -/
def updateAssoc {α β : Type} [BEq α] : List (α × β) → α → β → List (α × β)
  | [], k, v => [(k, v)]
  | (k2, v2) :: rest, k, v =>
    if k2 == k then (k, v) :: rest else (k2, v2) :: updateAssoc rest k v

namespace Typechecker
/-- A Go `TypeExpr` interface value.  `tvar`/`obj` are the two heap-cell kinds
that `unify` mutates in place (`TypeVar.Link`, `ObjectType.Fields`); their
mutable state lives in a `Store` under the cell identity.  `prim` is Go's
value-typed `PrimitiveType`.  `arr`/`union` are allocated but never written
through, so they are kept structural; equality on this representation then
models Go's interface comparison `t1 == t2` (identity for cells, value
equality for primitives), except that two separately allocated structurally
equal arrays/unions are identified — no theorem below depends on that corner. -/
inductive TypeExpr where
  | tvar (id : Nat)
  | prim (name : String)
  | arr (elem : TypeExpr)
  | obj (id : Nat)
  | union (members : List TypeExpr)

mutual

/-- Equality test on `TypeExpr`, modelling Go's `t1 == t2`. -/
def TypeExpr.beq : TypeExpr → TypeExpr → Bool
  | .tvar a, .tvar b => a == b
  | .prim a, .prim b => a == b
  | .arr a, .arr b => TypeExpr.beq a b
  | .obj a, .obj b => a == b
  | .union as, .union bs => TypeExpr.beqList as bs
  | _, _ => false

def TypeExpr.beqList : List TypeExpr → List TypeExpr → Bool
  | [], [] => true
  | a :: as, b :: bs => TypeExpr.beq a b && TypeExpr.beqList as bs
  | _, _ => false

end

instance : BEq TypeExpr := ⟨TypeExpr.beq⟩

mutual

theorem TypeExpr.beq_refl : ∀ t : TypeExpr, TypeExpr.beq t t = true
  | .tvar a => by simp [TypeExpr.beq]
  | .prim a => by simp [TypeExpr.beq]
  | .arr a => by simp only [TypeExpr.beq]; exact TypeExpr.beq_refl a
  | .obj a => by simp [TypeExpr.beq]
  | .union as => by simp only [TypeExpr.beq]; exact TypeExpr.beqList_refl as

theorem TypeExpr.beqList_refl : ∀ ts : List TypeExpr, TypeExpr.beqList ts ts = true
  | [] => rfl
  | a :: as => by
    simp only [TypeExpr.beqList, Bool.and_eq_true]
    exact ⟨TypeExpr.beq_refl a, TypeExpr.beqList_refl as⟩

end

mutual

theorem TypeExpr.beq_sound : ∀ t u : TypeExpr, TypeExpr.beq t u = true → t = u
  | .tvar a, .tvar b => by simp [TypeExpr.beq]
  | .prim a, .prim b => by simp [TypeExpr.beq]
  | .arr a, .arr b => by
    simp only [TypeExpr.beq, arr.injEq]
    exact TypeExpr.beq_sound a b
  | .obj a, .obj b => by simp [TypeExpr.beq]
  | .union as, .union bs => by
    simp only [TypeExpr.beq, union.injEq]
    exact TypeExpr.beqList_sound as bs
  | .tvar _, .prim _ => by simp [TypeExpr.beq]
  | .tvar _, .arr _ => by simp [TypeExpr.beq]
  | .tvar _, .obj _ => by simp [TypeExpr.beq]
  | .tvar _, .union _ => by simp [TypeExpr.beq]
  | .prim _, .tvar _ => by simp [TypeExpr.beq]
  | .prim _, .arr _ => by simp [TypeExpr.beq]
  | .prim _, .obj _ => by simp [TypeExpr.beq]
  | .prim _, .union _ => by simp [TypeExpr.beq]
  | .arr _, .tvar _ => by simp [TypeExpr.beq]
  | .arr _, .prim _ => by simp [TypeExpr.beq]
  | .arr _, .obj _ => by simp [TypeExpr.beq]
  | .arr _, .union _ => by simp [TypeExpr.beq]
  | .obj _, .tvar _ => by simp [TypeExpr.beq]
  | .obj _, .prim _ => by simp [TypeExpr.beq]
  | .obj _, .arr _ => by simp [TypeExpr.beq]
  | .obj _, .union _ => by simp [TypeExpr.beq]
  | .union _, .tvar _ => by simp [TypeExpr.beq]
  | .union _, .prim _ => by simp [TypeExpr.beq]
  | .union _, .arr _ => by simp [TypeExpr.beq]
  | .union _, .obj _ => by simp [TypeExpr.beq]

theorem TypeExpr.beqList_sound : ∀ ts us : List TypeExpr,
    TypeExpr.beqList ts us = true → ts = us
  | [], [] => fun _ => rfl
  | [], _ :: _ => by simp [TypeExpr.beqList]
  | _ :: _, [] => by simp [TypeExpr.beqList]
  | a :: as, b :: bs => by
    simp only [TypeExpr.beqList, Bool.and_eq_true, List.cons.injEq]
    exact fun h => ⟨TypeExpr.beq_sound a b h.1, TypeExpr.beqList_sound as bs h.2⟩

end

theorem TypeExpr.beq_iff_eq (t u : TypeExpr) : ((t == u) = true) ↔ t = u :=
  ⟨TypeExpr.beq_sound t u, fun h => h ▸ TypeExpr.beq_refl t⟩

theorem TypeExpr.beq_self (t : TypeExpr) : (t == t) = true := TypeExpr.beq_refl t

instance : DecidableEq TypeExpr :=
  fun t u => decidable_of_iff _ (TypeExpr.beq_iff_eq t u)


/-- The mutable heap of the Go typechecker: the `TypeVar.Link` cells (absent
entry = nil link) and the `ObjectType.Fields` cells. -/
structure Store where
  links : List (Nat × TypeExpr)
  fields : List (Nat × List (String × TypeExpr))
deriving DecidableEq

def Store.getLink (σ : Store) (id : Nat) : Option TypeExpr :=
  (σ.links.find? (fun p => p.1 == id)).map Prod.snd

def Store.setLink (σ : Store) (id : Nat) (t : TypeExpr) : Store :=
  { σ with links := updateAssoc σ.links id t }

def Store.getFields (σ : Store) (id : Nat) : List (String × TypeExpr) :=
  match σ.fields.find? (fun p => p.1 == id) with
  | some p => p.2
  | none => []

def Store.setFields (σ : Store) (id : Nat) (fs : List (String × TypeExpr)) : Store :=
  { σ with fields := updateAssoc σ.fields id fs }

def lookupField (fs : List (String × TypeExpr)) (name : String) : Option TypeExpr :=
  (fs.find? (fun p => p.1 == name)).map Prod.snd

/-- The pending work of one `tc.unify` activation: either a single call, one
of the three union loops, or the object-field merge loop.  Go expresses the
loops with `for`/recursion; defunctionalizing them into one task type lets
the whole of `unify` recurse structurally on a single fuel counter. -/
inductive UTask where
  | one (t1 t2 : TypeExpr)
  | left (members : List TypeExpr) (t2 : TypeExpr)
  | right (t1 : TypeExpr) (members : List TypeExpr)
  | pairs (ts1 ts2 : List TypeExpr)
  | merge (merged fields2 : List (String × TypeExpr))

/-- `tc.unify(t1, t2)` and its loops (`src/unnamed/part_000`, lines 508-573).
The `Bool` is `true` for Go `nil` and `false` for a non-nil error (messages
are not modelled); the third component carries the merged field list of a
`merge` task and is `[]` otherwise.  `none` means the fuel ran out: Go's
recursion can diverge on cyclic link chains, so every internal step consumes
one unit of fuel, and every theorem below either quantifies over the fuel or
instantiates it large enough.  All mutations performed before a failure
persist, exactly as in Go; Go iterates `t2.Fields` in unspecified map order,
which the embedding fixes to the list order of the fields cell. -/
def unifyRun : Nat → UTask → Store →
    Option (Bool × Store × List (String × TypeExpr))
  | 0, _, _ => none
  | fuel + 1, .one t1 t2, σ =>
    -- if t1 == t2 { return nil }
    if t1 == t2 then some (true, σ, []) else
    match t1, t2 with
    -- dereference linked type variables, then link an unlinked t1,
    -- then swap an unlinked variable t2 to the left
    | .tvar id1, _ =>
      match σ.getLink id1 with
      | some l1 => unifyRun fuel (.one l1 t2) σ
      | none =>
        match t2 with
        | .tvar id2 =>
          match σ.getLink id2 with
          | some l2 => unifyRun fuel (.one t1 l2) σ
          | none => some (true, σ.setLink id1 t2, [])
        | _ => some (true, σ.setLink id1 t2, [])
    | _, .tvar id2 =>
      match σ.getLink id2 with
      | some l2 => unifyRun fuel (.one t1 l2) σ
      | none => unifyRun fuel (.one t2 t1) σ
    -- switch t1 := t1.(type)
    | .prim a, .prim b => if a == b then some (true, σ, []) else some (false, σ, [])
    | .arr e1, .arr e2 => unifyRun fuel (.one e1 e2) σ
    | .obj id1, .obj id2 =>
      match unifyRun fuel (.merge (σ.getFields id1) (σ.getFields id2)) σ with
      | none => none
      | some (false, σ2, _) => some (false, σ2, [])
      | some (true, σ2, merged) => some (true, σ2.setFields id1 merged, [])
    | .union ts1, .union ts2 => unifyRun fuel (.pairs ts1 ts2) σ
    | .union ts1, _ => unifyRun fuel (.left ts1 t2) σ
    -- return fmt.Errorf("cannot unify %v with %v", t1, t2)
    | _, _ => some (false, σ, [])
  | fuel + 1, .left members t2, σ =>
    -- for _, type1 := range t1.Types { if unify(type1, t2) == nil { return nil } }
    match members with
    | [] => some (false, σ, [])
    | m :: rest =>
      match unifyRun fuel (.one m t2) σ with
      | none => none
      | some (true, σ2, _) => some (true, σ2, [])
      | some (false, σ2, _) => unifyRun fuel (.left rest t2) σ2
  | fuel + 1, .right t1 members, σ =>
    -- inner loop of the union-union case: for _, type2 := range t2.Types
    match members with
    | [] => some (false, σ, [])
    | m :: rest =>
      match unifyRun fuel (.one t1 m) σ with
      | none => none
      | some (true, σ2, _) => some (true, σ2, [])
      | some (false, σ2, _) => unifyRun fuel (.right t1 rest) σ2
  | fuel + 1, .pairs ts1 ts2, σ =>
    -- outer loop of the union-union case: for _, type1 := range t1.Types
    match ts1 with
    | [] => some (false, σ, [])
    | m :: rest =>
      match unifyRun fuel (.right m ts2) σ with
      | none => none
      | some (true, σ2, _) => some (true, σ2, [])
      | some (false, σ2, _) => unifyRun fuel (.pairs rest ts2) σ2
  | fuel + 1, .merge merged fields2, σ =>
    -- mergedFields := maps.Clone(t1.Fields); for name, typ2 := range t2.Fields
    match fields2 with
    | [] => some (true, σ, merged)
    | (name, typ2) :: rest =>
      match lookupField merged name with
      | some typ1 =>
        match unifyRun fuel (.one typ1 typ2) σ with
        | none => none
        | some (true, σ2, _) => unifyRun fuel (.merge merged rest) σ2
        | some (false, σ2, _) => some (false, σ2, merged)
      | none => unifyRun fuel (.merge (merged ++ [(name, typ2)]) rest) σ

/-- `tc.unify(t1, t2)`: `some (true, σ)` for success, `some (false, σ)` for a
unification error, `none` for fuel exhaustion; the returned store carries all
mutations, including those of failed union attempts. -/
def unify (fuel : Nat) (t1 t2 : TypeExpr) (σ : Store) : Option (Bool × Store) :=
  (unifyRun fuel (.one t1 t2) σ).map (fun r => (r.1, r.2.1))

/-- The empty store: no variable is linked and no object has fields. -/
def emptyStore : Store := ⟨[], []⟩

mutual

/-- The identities of the `TypeVar` cells occurring in a type expression. -/
def varsOf : TypeExpr → List Nat
  | .tvar id => [id]
  | .prim _ => []
  | .arr e => varsOf e
  | .obj _ => []
  | .union ms => varsOfList ms

def varsOfList : List TypeExpr → List Nat
  | [] => []
  | m :: rest => varsOf m ++ varsOfList rest

end

mutual

/-- The identities of the `ObjectType` cells occurring in a type expression. -/
def objsOf : TypeExpr → List Nat
  | .tvar _ => []
  | .prim _ => []
  | .arr e => objsOf e
  | .obj id => [id]
  | .union ms => objsOfList ms

def objsOfList : List TypeExpr → List Nat
  | [] => []
  | m :: rest => objsOf m ++ objsOfList rest

end

/-- Follow a chain of variable links for at most `n` steps (Go follows them
by recursion; chains are acyclic in every store the repository builds). -/
def chase : Nat → Store → TypeExpr → TypeExpr
  | 0, _, t => t
  | n + 1, σ, t =>
    match t with
    | .tvar id =>
      match σ.getLink id with
      | some l => chase n σ l
      | none => .tvar id
    | t => t

mutual

/-- The observable value of a type expression under a store: every variable
occurrence is replaced by its chased link. -/
def resolveS (n : Nat) (σ : Store) : TypeExpr → TypeExpr
  | .tvar id => chase n σ (.tvar id)
  | .prim s => .prim s
  | .arr e => .arr (resolveS n σ e)
  | .obj id => .obj id
  | .union ms => .union (resolveSList n σ ms)

def resolveSList (n : Nat) (σ : Store) : List TypeExpr → List TypeExpr
  | [] => []
  | m :: rest => resolveS n σ m :: resolveSList n σ rest

end

mutual

theorem resolveS_ground (n : Nat) (σ : Store) :
    ∀ t : TypeExpr, varsOf t = [] → resolveS n σ t = t
  | .tvar id => by simp [varsOf]
  | .prim s => fun _ => rfl
  | .arr e => fun h => by
    simp only [varsOf] at h
    simp only [resolveS, resolveS_ground n σ e h]
  | .obj id => fun _ => rfl
  | .union ms => fun h => by
    simp only [varsOf] at h
    simp only [resolveS, resolveSList_ground n σ ms h]

theorem resolveSList_ground (n : Nat) (σ : Store) :
    ∀ ms : List TypeExpr, varsOfList ms = [] → resolveSList n σ ms = ms
  | [] => fun _ => rfl
  | m :: rest => fun h => by
    simp only [varsOfList, List.append_eq_nil] at h
    simp only [resolveSList, resolveS_ground n σ m h.1, resolveSList_ground n σ rest h.2]

end

/-- C3 counterexample: unifying `Union{?t0}` with `Primitive(string)` succeeds
and links the variable inside the variant — the union's variant is mutated. -/
theorem unify_union_links_variant :
    emptyStore.getLink 0 = none ∧
    unify 10 (.union [.tvar 0]) (.prim "string") emptyStore
      = some (true, ⟨[(0, .prim "string")], []⟩) ∧
    Store.getLink ⟨[(0, .prim "string")], []⟩ 0 = some (.prim "string") ∧
    resolveS 1 (⟨[(0, .prim "string")], []⟩ : Store) (.tvar 0) = .prim "string" ∧
    resolveS 1 emptyStore (.tvar 0) = .tvar 0 :=
  ⟨rfl, rfl, rfl, rfl, rfl⟩

/-- C3 (amended): unification of a union leaves every variant that contains no
type variables and no object cells unchanged — such variants have no mutable
state; a variant containing an unlinked variable may become linked (see
`unify_union_links_variant`). -/
theorem unify_union_preserves_ground_variants
    (fuel : Nat) (ms : List TypeExpr) (t : TypeExpr) (σ : Store) (r : Bool)
    (σ2 : Store) (_h : unify fuel (.union ms) t σ = some (r, σ2)) :
    ∀ m ∈ ms, varsOf m = [] → objsOf m = [] →
      (∀ n, resolveS n σ2 m = resolveS n σ m) ∧
      (∀ id ∈ varsOf m, σ2.getLink id = σ.getLink id) ∧
      (∀ id ∈ objsOf m, σ2.getFields id = σ.getFields id) := by
  intro m _ hv ho
  refine ⟨?_, ?_, ?_⟩
  · intro n
    rw [resolveS_ground n σ2 m hv, resolveS_ground n σ m hv]
  · intro id hid
    rw [hv] at hid
    simp at hid
  · intro id hid
    rw [ho] at hid
    simp at hid

/-- `rigid t`: `t` is built from primitives and arrays only — no unification
variable, no object cell, no union. -/
def rigid : TypeExpr → Bool
  | .prim _ => true
  | .arr e => rigid e
  | _ => false

/-- The array-nesting depth of a type expression, bounding the recursion
depth `unify` needs on rigid inputs. -/
def rank : TypeExpr → Nat
  | .arr e => rank e + 1
  | _ => 0

theorem unify_prim_eval (s : String) (b : TypeExpr) (σ : Store) (fuel : Nat)
    (hf : 1 ≤ fuel) (hb : rigid b = true) :
    unify fuel (.prim s) b σ = some (decide (.prim s = b), σ) := by
  obtain ⟨f, rfl⟩ : ∃ f, fuel = f + 1 := ⟨fuel - 1, by omega⟩
  by_cases hab : TypeExpr.prim s = b
  · subst hab
    simp [unify, unifyRun, TypeExpr.beq_self]
  · have hbeq : ((TypeExpr.prim s) == b) = false := by
      rw [Bool.eq_false_iff]
      intro h
      exact hab (TypeExpr.beq_sound _ _ h)
    cases b with
    | prim t =>
      have hst : (s == t) = false := by
        simp only [beq_eq_false_iff_ne, ne_eq]
        intro h
        exact hab (by rw [h])
      simp [unify, unifyRun, hbeq, hst, hab]
    | arr e => simp [unify, unifyRun, hbeq, hab]
    | tvar id => simp [rigid] at hb
    | obj id => simp [rigid] at hb
    | union ms => simp [rigid] at hb

/-- On rigid (union-, variable- and object-free) inputs, `unify` is decided
equality and leaves the store untouched. -/
theorem unify_rigid_eval : ∀ (n : Nat) (a b : TypeExpr) (σ : Store) (fuel : Nat),
    rank a ≤ n → n + 1 ≤ fuel → rigid a = true → rigid b = true →
    unify fuel a b σ = some (decide (a = b), σ) := by
  intro n
  induction n with
  | zero =>
    intro a b σ fuel hr hf ha hb
    cases a with
    | prim s => exact unify_prim_eval s b σ fuel (by omega) hb
    | arr e => simp [rank] at hr
    | tvar id => simp [rigid] at ha
    | obj id => simp [rigid] at ha
    | union ms => simp [rigid] at ha
  | succ n ih =>
    intro a b σ fuel hr hf ha hb
    cases a with
    | prim s => exact unify_prim_eval s b σ fuel (by omega) hb
    | arr e1 =>
      obtain ⟨f, rfl⟩ : ∃ f, fuel = f + 1 := ⟨fuel - 1, by omega⟩
      by_cases hab : TypeExpr.arr e1 = b
      · subst hab
        simp [unify, unifyRun, TypeExpr.beq_self]
      · have hbeq : ((TypeExpr.arr e1) == b) = false := by
          rw [Bool.eq_false_iff]
          intro h
          exact hab (TypeExpr.beq_sound _ _ h)
        cases b with
        | prim t => simp [unify, unifyRun, hbeq, hab]
        | arr e2 =>
          have he : ¬ e1 = e2 := fun h => hab (by rw [h])
          have hrank : rank e1 ≤ n := by
            simp only [rank] at hr
            omega
          have hrec := ih e1 e2 σ f hrank (by omega)
            (by simpa [rigid] using ha) (by simpa [rigid] using hb)
          have hstep : unify (f + 1) (.arr e1) (.arr e2) σ = unify f e1 e2 σ := by
            simp [unify, unifyRun, hbeq]
          rw [hstep, hrec]
          simp [he, hab]
        | tvar id => simp [rigid] at hb
        | obj id => simp [rigid] at hb
        | union ms => simp [rigid] at hb
    | tvar id => simp [rigid] at ha
    | obj id => simp [rigid] at ha
    | union ms => simp [rigid] at ha

/-- C2 counterexample: the claim's own instance fails —
`unify(Primitive(string), Union{string, number})` returns an error while the
flipped call succeeds, so `unify` is not symmetric. -/
theorem unify_prim_union_asymmetric :
    unify 10 (.prim "string") (.union [.prim "string", .prim "number"]) emptyStore
      = some (false, emptyStore) ∧
    unify 10 (.union [.prim "string", .prim "number"]) (.prim "string") emptyStore
      = some (true, emptyStore) :=
  ⟨rfl, rfl⟩

/-- C2 (amended): on rigid (union-, variable- and object-free) type
expressions `unify` is symmetric — `unify(a,b)` succeeds iff `unify(b,a)`
succeeds, both decide structural equality, and neither changes any binding;
with a union on exactly one side symmetry fails (`unify_prim_union_asymmetric`). -/
theorem unify_rigid_symm (a b : TypeExpr) (σ : Store) (fuel : Nat)
    (ha : rigid a = true) (hb : rigid b = true)
    (hfa : rank a + 1 ≤ fuel) (hfb : rank b + 1 ≤ fuel) :
    unify fuel a b σ = some (decide (a = b), σ) ∧
    unify fuel b a σ = some (decide (b = a), σ) ∧
    (unify fuel a b σ = some (true, σ) ↔ unify fuel b a σ = some (true, σ)) := by
  have h1 := unify_rigid_eval (rank a) a b σ fuel le_rfl hfa ha hb
  have h2 := unify_rigid_eval (rank b) b a σ fuel le_rfl hfb hb ha
  refine ⟨h1, h2, ?_⟩
  by_cases hab : a = b
  · subst hab
    rw [h1]
  · rw [h1, h2]
    simp [hab, Ne.symm hab]

/-- Witness for C2 (amended) at `Primitive(string)` vs `Array(number)`. -/
theorem unify_rigid_symm_witness :
    unify 5 (.prim "string") (.arr (.prim "number")) emptyStore
      = some (decide ((TypeExpr.prim "string") = .arr (.prim "number")), emptyStore) ∧
    unify 5 (.arr (.prim "number")) (.prim "string") emptyStore
      = some (decide ((TypeExpr.arr (.prim "number")) = .prim "string"), emptyStore) ∧
    (unify 5 (.prim "string") (.arr (.prim "number")) emptyStore
        = some (true, emptyStore) ↔
      unify 5 (.arr (.prim "number")) (.prim "string") emptyStore
        = some (true, emptyStore)) :=
  unify_rigid_symm (.prim "string") (.arr (.prim "number")) emptyStore 5
    rfl rfl (by decide) (by decide)

/-- Witness for C3 (amended) at `Union{string, number}` against a fresh
variable. -/
theorem unify_union_preserves_ground_variants_witness :
    (∀ n, resolveS n (⟨[(0, .union [.prim "string", .prim "number"])], []⟩ : Store)
        (.prim "string") = resolveS n emptyStore (.prim "string")) ∧
    (∀ id ∈ varsOf (.prim "string"),
      Store.getLink ⟨[(0, .union [.prim "string", .prim "number"])], []⟩ id
        = emptyStore.getLink id) ∧
    (∀ id ∈ objsOf (.prim "string"),
      Store.getFields ⟨[(0, .union [.prim "string", .prim "number"])], []⟩ id
        = emptyStore.getFields id) :=
  unify_union_preserves_ground_variants 10 [.prim "string", .prim "number"]
    (.tvar 0) emptyStore true ⟨[(0, .union [.prim "string", .prim "number"])], []⟩
    rfl (.prim "string") (by simp) rfl rfl

end Typechecker

/-! # Path parser (`parser.ParsePath`, src/unnamed/part_006)

`ParsePath` scans a path with the regular expression
`([^.\[\]]+)|\[([^\]]+)\]` through `FindAllStringSubmatch` and never returns
a non-nil error.  The embedding implements the same leftmost-first scan
directly: at each position, a run of non-special characters is a dotted
segment, a bracketed nonempty run is an index segment, and a character that
can start no match is skipped. -/

namespace PathParser

/-- `parser.PathPart`. -/
structure PathPart where
  value : String
  isArrayRef : Bool
deriving DecidableEq, Repr

/-- One character of fuel per scan step; each step consumes at least one
input character, so `input.length + 1` fuel always completes the scan. -/
def parsePathAux : Nat → List Char → List PathPart
  | 0, _ => []
  | _ + 1, [] => []
  | fuel + 1, c :: rest =>
    if c = '.' ∨ c = ']' then
      -- neither alternative can match here; the scan moves one byte right
      parsePathAux fuel rest
    else if c = '[' then
      -- second alternative: `\[([^\]]+)\]`
      let inner := rest.takeWhile (fun x => x ≠ ']')
      match rest.drop inner.length with
      | ']' :: tail =>
        if inner.isEmpty then parsePathAux fuel rest
        else { value := inner.asString, isArrayRef := true } :: parsePathAux fuel tail
      | _ => parsePathAux fuel rest
    else
      -- first alternative: `[^.\[\]]+`, matched greedily
      let run := (c :: rest).takeWhile (fun x => ¬ (x = '.' ∨ x = '[' ∨ x = ']'))
      { value := run.asString, isArrayRef := false } ::
        parsePathAux fuel ((c :: rest).drop run.length)

/-- `parser.ParsePath`: the returned `error` is always nil in the source, so
the `Except` is always `.ok`. -/
def ParsePath (path : String) : Except String (List PathPart) :=
  .ok (parsePathAux (path.length + 1) path.toList)

end PathParser

/-! # Runtime evaluator (package hop, src/hop.go)

The evaluator walks `*html.Node` trees against a scope `map[string]any`.
Nodes become an inductive tree, the dynamic `any` universe becomes `Value`,
and the recursion — which goes through other function bodies via `render`
and can therefore be unbounded — takes fuel, one unit per internal step.
A Go `float64` is represented by its `%g` (shortest round-trip) rendering:
the evaluator never computes with floats, it only formats them.  Values
reached through Go reflection (host-language structs with JSON field tags)
are outside the model. -/

namespace Runtime

open PathParser

/-- An `*html.Node` as the evaluator uses it: element (tag, attributes,
children), text, doctype or comment. -/
inductive HNode where
  | elem (tag : String) (attrs : List (String × String)) (children : List HNode)
  | text (data : String)
  | doctype (data : String)
  | comment (data : String)

def HNode.attrsOf : HNode → List (String × String)
  | .elem _ attrs _ => attrs
  | _ => []

def HNode.childrenOf : HNode → List HNode
  | .elem _ _ children => children
  | _ => []

/-- The dynamic value universe of the evaluator: Go `nil`, `bool`, `float64`
(kept as its `%g` rendering), `int`, `string`, `[]any`, `map[string]any` and
`[]*html.Node` (the `children` binding). -/
inductive Value where
  | vNull
  | vBool (b : Bool)
  | vNum (g : String)
  | vInt (n : Int)
  | vStr (s : String)
  | vArr (elems : List Value)
  | vObj (fields : List (String × Value))
  | vNodes (nodes : List HNode)

/-- A scope, Go `map[string]any`. -/
abbrev Scope := List (String × Value)

def getField (fields : Scope) (key : String) : Option Value :=
  (fields.find? (fun p => p.1 == key)).map Prod.snd

/-- The component-walking loop of `lookup`.  The `default` reflection branch
(host-language structs) is not modelled: every value that is not a
`map[string]any` or `[]any` is a navigation error, exactly as in Go for the
JSON-shaped values the claims concern. -/
def lookupLoop : List PathPart → Value → Except String Value
  | [], current => .ok current
  | comp :: rest, current =>
    match current with
    | .vObj fields =>
      match getField fields comp.value with
      | some v => lookupLoop rest v
      | none => .error ("key not found: " ++ comp.value)
    | .vArr elems =>
      if !comp.isArrayRef then
        .error ("cannot use " ++ comp.value ++ " as array index: not an array reference")
      else
        match comp.value.toInt? with
        | none => .error ("invalid array index: " ++ comp.value)
        | some index =>
          if index < 0 ∨ index ≥ elems.length then
            .error "array index out of bounds"
          else
            lookupLoop rest (elems.getD index.toNat .vNull)
    | _ => .error "cannot navigate through type"

/-- `lookup(path, scope)`: parse the path and walk the components starting
from the scope map itself (`current := any(scope)`). -/
def lookup (path : String) (scope : Scope) : Except String Value :=
  match ParsePath path with
  | .error e => .error e
  | .ok components => lookupLoop components (.vObj scope)

/-- `fmt.Sprintf(\"%d\", u)` for a Go `int`: decimal with a minus sign. -/
def formatInt (n : Int) : String := toString n

/-- `handleInnerText`: look the path up and build a text node from a
`float64` (its `%g` form), an `int` (its `%d` form) or a `string`; every
other dynamic value is an error. -/
def handleInnerText (symbols : Scope) (path : String) : Except String HNode :=
  match lookup path symbols with
  | .error e => .error e
  | .ok v =>
    match v with
    | .vNum g => .ok (.text g)
    | .vInt n => .ok (.text (formatInt n))
    | .vStr s => .ok (.text s)
    | _ => .error "can not assign as inner text"

/-- `evaluateChildren`: look up the key `children`; Go returns `nil, nil`
for a nil binding and the node list for a `[]*html.Node` binding, and
panics on any other type (modelled as an error). -/
def evaluateChildren (s : Scope) : Except String (List HNode) :=
  match lookup "children" s with
  | .error e => .error e
  | .ok v =>
    match v with
    | .vNull => .ok []
    | .vNodes u => .ok u
    | _ => .error "panic: Unexpected type of children"

/-- The attribute switch of `evaluateNative`: `inner-text` appends a text
child, `attr-KEY` sets attribute `KEY` to the stringified lookup, anything
else passes through; processed in attribute order, stopping at the first
error. -/
def nativeAttrs (s : Scope) : List (String × String) →
    Except String (List (String × String) × List HNode)
  | [] => .ok ([], [])
  | (k, v) :: rest =>
    if k == "inner-text" then
      match handleInnerText s v with
      | .error e => .error e
      | .ok tn =>
        match nativeAttrs s rest with
        | .error e => .error e
        | .ok (as2, ns2) => .ok (as2, tn :: ns2)
    else if k.startsWith "attr-" then
      match lookup v s with
      | .error e => .error e
      | .ok val =>
        match val with
        | .vNum g =>
          match nativeAttrs s rest with
          | .error e => .error e
          | .ok (as2, ns2) => .ok ((k.drop 5, g) :: as2, ns2)
        | .vInt n =>
          match nativeAttrs s rest with
          | .error e => .error e
          | .ok (as2, ns2) => .ok ((k.drop 5, formatInt n) :: as2, ns2)
        | .vStr str =>
          match nativeAttrs s rest with
          | .error e => .error e
          | .ok (as2, ns2) => .ok ((k.drop 5, str) :: as2, ns2)
        | _ => .error "can not use as an attribute"
    else
      match nativeAttrs s rest with
      | .error e => .error e
      | .ok (as2, ns2) => .ok ((k, v) :: as2, ns2)

/-- A compiled module as the evaluator needs it: `function name → function
node` (the driver's `imports`, `functionTypes` and `nodePositions` fields
play no role at evaluation time and are elided). -/
structure Module where
  functions : List (String × HNode)

def getFunc (m : Module) (name : String) : Option HNode :=
  (m.functions.find? (fun p => p.1 == name)).map Prod.snd

/-- The attribute loop of `evaluateRender`: resolve the `function` attribute
against the module's functions and evaluate the `params` lookup, in
attribute order. -/
def renderArgs (m : Module) (s : Scope) : List (String × String) →
    Option HNode → Value → Except String (Option HNode × Value)
  | [], fn, v => .ok (fn, v)
  | (k, val) :: rest, fn, v =>
    if k == "function" then
      match getFunc m val with
      | none => .error ("no function with name " ++ val)
      | some c => renderArgs m s rest (some c) v
    else if k == "params" then
      match lookup val s with
      | .error e => .error e
      | .ok pv => renderArgs m s rest fn pv
    else
      renderArgs m s rest fn v

/-- The `params-as` loop shared by `ExecuteFunction` and `evaluateRender`:
starting from an empty scope, bind the value under every `params-as`
attribute's name. -/
def bindParams (attrs : List (String × String)) (data : Value) : Scope :=
  attrs.foldl (fun sc a => if a.1 == "params-as" then updateAssoc sc a.2 data else sc) []

/-- The `each`/`as` attribute collection of `evaluateFor`. -/
def collectForAttrs (attrs : List (String × String)) : String × String :=
  attrs.foldl
    (fun ea a =>
      if a.1 == "each" then (a.2, ea.2)
      else if a.1 == "as" then (ea.1, a.2)
      else ea)
    ("", "")

/-- Pending evaluator work: a single node (`evaluateNode`), a node list
evaluated in order with concatenated results, or the per-element loop of
`evaluateFor`. -/
inductive ETask where
  | one (n : HNode)
  | many (ns : List HNode)
  | forIter (children : List HNode) (asName : String) (elems : List Value)

/-- `(m *module) evaluateNode` and its loops (src/hop.go lines 325-580),
defunctionalized so the recursion — through `render` into other function
bodies — is structural on one fuel counter; `out of fuel` cannot occur when
the fuel exceeds the number of evaluation steps.  Go panics (arity checks
guaranteed by the typechecker, a nil `render` target, a non-node `children`
binding) are modelled as errors marked `panic:`. -/
def evalRun (m : Module) : Nat → ETask → Scope → Except String (List HNode)
  | 0, _, _ => .error "out of fuel"
  | fuel + 1, .one n, s =>
    match n with
    | .elem "render" attrs children =>
      if attrs.length < 1 ∨ attrs.length > 2 then
        .error "panic: Expected render to have exactly 1 or 2 attributes"
      else
        match renderArgs m s attrs none .vNull with
        | .error e => .error e
        | .ok (none, _) => .error "panic: nil function in render"
        | .ok (some fn, valueToBind) =>
          match evalRun m fuel (.many children) s with
          | .error e => .error e
          | .ok processed =>
            evalRun m fuel (.many fn.childrenOf)
              (updateAssoc (bindParams fn.attrsOf valueToBind) "children" (.vNodes processed))
    | .elem "fragment" attrs children =>
      if attrs.length > 1 then
        .error "panic: Expected fragment to have exactly 0 or 1 attribute"
      else
        match attrs with
        | (_, v) :: _ =>
          match handleInnerText s v with
          | .error e => .error e
          | .ok tn => .ok [tn]
        | [] => evalRun m fuel (.many children) s
    | .elem "children" _ _ => evaluateChildren s
    | .elem "for" attrs children =>
      if attrs.length < 1 ∨ attrs.length > 2 then
        .error "panic: Expected for to have exactly 1 or 2 attributes"
      else
        match lookup (collectForAttrs attrs).1 s with
        | .error e => .error e
        | .ok v =>
          match v with
          | .vArr elems => evalRun m fuel (.forIter children (collectForAttrs attrs).2 elems) s
          | _ =>
            -- Go iterates any reflect.Slice; of the modelled values only
            -- `[]any` data reaches a for-loop, so the rest error here.
            .error "can not iterate over non-array value"
    | .elem "if" attrs children =>
      if attrs.length ≠ 1 then
        .error "panic: Expected if to have exactly 1 attribute"
      else
        match attrs with
        | (_, v) :: _ =>
          match lookup v s with
          | .error e => .error e
          | .ok val =>
            match val with
            | .vBool b => if b then evalRun m fuel (.many children) s else .ok []
            | _ => .error "can not use as condition in if"
        | [] => .error "panic: Expected if to have exactly 1 attribute"
    | .elem tag attrs children =>
      -- evaluateNative: clone the element, process attributes, and if no
      -- inner-text produced a child, evaluate the original children
      match nativeAttrs s attrs with
      | .error e => .error e
      | .ok (newAttrs, innerNodes) =>
        if innerNodes.isEmpty then
          match evalRun m fuel (.many children) s with
          | .error e => .error e
          | .ok kids => .ok [.elem tag newAttrs kids]
        else
          .ok [.elem tag newAttrs innerNodes]
    | other => .ok [other]
  | fuel + 1, .many ns, s =>
    match ns with
    | [] => .ok []
    | n :: rest =>
      match evalRun m fuel (.one n) s with
      | .error e => .error e
      | .ok out1 =>
        match evalRun m fuel (.many rest) s with
        | .error e => .error e
        | .ok out2 => .ok (out1 ++ out2)
  | fuel + 1, .forIter children asName elems, s =>
    match elems with
    | [] => .ok []
    | item :: rest =>
      match evalRun m fuel (.many children)
          (if asName = "" then s else updateAssoc s asName item) with
      | .error e => .error e
      | .ok out1 =>
        match evalRun m fuel (.forIter children asName rest) s with
        | .error e => .error e
        | .ok out2 => .ok (out1 ++ out2)

/-- A compiled program: `module name → module`. -/
structure Program where
  modules : List (String × Module)

def getModule (p : Program) (name : String) : Option Module :=
  (p.modules.find? (fun q => q.1 == name)).map Prod.snd

/-- `(p *Program) ExecuteFunction(w, moduleName, functionName, data)`:
locate the function, bind `data` under its `params-as` name (the scope stays
empty without one), evaluate the function body and return the nodes that Go
serializes to the writer. -/
def ExecuteFunction (fuel : Nat) (p : Program) (moduleName functionName : String)
    (data : Value) : Except String (List HNode) :=
  match getModule p moduleName with
  | none => .error ("no module with name " ++ moduleName)
  | some m =>
    match getFunc m functionName with
    | none => .error ("no function with name " ++ functionName)
    | some function =>
      evalRun m fuel (.many function.childrenOf) (bindParams function.attrsOf data)

end Runtime

namespace Typechecker

open PathParser

/-- The component fold of `typecheckLookup`: fresh variables come from a
`nextVar` counter and fresh `ObjectType` allocations from a `nextObj`
counter (a new heap cell per `&ObjectType{...}`). -/
def tcLookupLoop (fuel : Nat) : List PathPart → TypeExpr → Store → Nat → Nat →
    Except String TypeExpr × Store × Nat × Nat
  | [], current, σ, nv, no => (.ok current, σ, nv, no)
  | comp :: rest, current, σ, nv, no =>
    if comp.isArrayRef then
      match unify fuel current (.arr (.tvar (nv + 1))) σ with
      | none => (.error "out of fuel", σ, nv + 1, no)
      | some (false, σ2) => (.error "cannot index non-array value", σ2, nv + 1, no)
      | some (true, σ2) => tcLookupLoop fuel rest (.tvar (nv + 1)) σ2 (nv + 1) no
    else
      match unify fuel current (.obj no) (σ.setFields no [(comp.value, .tvar (nv + 1))]) with
      | none => (.error "out of fuel", σ, nv + 1, no + 1)
      | some (false, σ2) => (.error "cannot access field", σ2, nv + 1, no + 1)
      | some (true, σ2) => tcLookupLoop fuel rest (.tvar (nv + 1)) σ2 (nv + 1) (no + 1)

/-- `(tc *typeChecker) typecheckLookup(path, scope)` from the positioned
typechecker: parse the path, reject an empty part list (`empty path`) and a
leading array index, look the head up in the scope, and fold the remaining
components through `unify`. -/
def typecheckLookup (fuel : Nat) (path : String) (scope : List (String × TypeExpr))
    (σ : Store) (nv no : Nat) : Except String TypeExpr × Store × Nat × Nat :=
  match ParsePath path with
  | .error e => (.error ("invalid path: " ++ e), σ, nv, no)
  | .ok parts =>
    match parts with
    | [] => (.error "empty path", σ, nv, no)
    | first :: rest =>
      if first.isArrayRef then (.error "unexpected array-index", σ, nv, no)
      else
        match (scope.find? (fun p => p.1 == first.value)).map Prod.snd with
        | none => (.error ("undefined variable " ++ first.value), σ, nv, no)
        | some t0 => tcLookupLoop fuel rest t0 σ nv no

end Typechecker

namespace Runtime

/-- C6 counterexample: `ParsePath("")` returns an empty component list with a
nil error, and the runtime `lookup` of the empty path then yields the whole
scope as a value instead of failing. -/
theorem parsePath_empty_not_error :
    PathParser.ParsePath "" = .ok [] ∧
    lookup "" [("x", Value.vStr "a")] = .ok (.vObj [("x", .vStr "a")]) :=
  ⟨rfl, rfl⟩

/-- C6 (amended): `ParsePath` does not reject the empty path — it returns an
empty component list and a nil error; the typechecker's `typecheckLookup`
rejects an empty path with an `empty path` error before touching the scope,
while the runtime `lookup` returns the entire scope map as the value. -/
theorem parsePath_empty_behaviour :
    PathParser.ParsePath "" = .ok [] ∧
    (∀ scope : Scope, lookup "" scope = .ok (.vObj scope)) ∧
    (∀ (fuel : Nat) (scope : List (String × Typechecker.TypeExpr))
      (σ : Typechecker.Store) (nv no : Nat),
      Typechecker.typecheckLookup fuel "" scope σ nv no = (.error "empty path", σ, nv, no)) :=
  ⟨rfl, fun _ => rfl, fun _ _ _ _ _ => rfl⟩

theorem digitChar_ne_dot (n : Nat) : Nat.digitChar n ≠ '.' := by
  rcases Nat.lt_or_ge n 16 with h | h
  · interval_cases n <;> decide
  · have hne : ∀ k, k < 16 → n ≠ k := by omega
    have hstar : Nat.digitChar n = '*' := by
      unfold Nat.digitChar
      rw [if_neg (hne 0 (by norm_num)), if_neg (hne 1 (by norm_num)),
        if_neg (hne 2 (by norm_num)), if_neg (hne 3 (by norm_num)),
        if_neg (hne 4 (by norm_num)), if_neg (hne 5 (by norm_num)),
        if_neg (hne 6 (by norm_num)), if_neg (hne 7 (by norm_num)),
        if_neg (hne 8 (by norm_num)), if_neg (hne 9 (by norm_num)),
        if_neg (hne 10 (by norm_num)), if_neg (hne 11 (by norm_num)),
        if_neg (hne 12 (by norm_num)), if_neg (hne 13 (by norm_num)),
        if_neg (hne 14 (by norm_num)), if_neg (hne 15 (by norm_num))]
    rw [hstar]
    decide

theorem toDigitsCore_ne_dot (b : Nat) : ∀ (f n : Nat) (l : List Char),
    (∀ c ∈ l, c ≠ '.') → ∀ c ∈ Nat.toDigitsCore b f n l, c ≠ '.' := by
  intro f
  induction f with
  | zero =>
    intro n l hl c hc
    exact hl c hc
  | succ f ih =>
    intro n l hl c hc
    simp only [Nat.toDigitsCore] at hc
    split at hc
    · rcases List.mem_cons.1 hc with rfl | hmem
      · exact digitChar_ne_dot _
      · exact hl c hmem
    · refine ih _ _ ?_ c hc
      intro c2 hc2
      rcases List.mem_cons.1 hc2 with rfl | hmem
      · exact digitChar_ne_dot _
      · exact hl c2 hmem

theorem natRepr_ne_dot (n : Nat) : ∀ c ∈ (Nat.repr n).data, c ≠ '.' := by
  intro c hc
  have : (Nat.repr n).data = Nat.toDigitsCore 10 (n + 1) n [] := rfl
  rw [this] at hc
  exact toDigitsCore_ne_dot 10 (n + 1) n [] (by simp) c hc

/-- Go's `%d` never prints a decimal point. -/
theorem formatInt_no_dot (n : Int) : ¬ '.' ∈ (formatInt n).data := by
  cases n with
  | ofNat m =>
    intro h
    exact natRepr_ne_dot m '.' h rfl
  | negSucc m =>
    intro h
    have : (formatInt (Int.negSucc m)).data = '-' :: (Nat.repr (m + 1)).data := rfl
    rw [this] at h
    rcases List.mem_cons.1 h with h2 | h2
    · exact absurd h2.symm (by decide)
    · exact natRepr_ne_dot (m + 1) '.' h2 rfl

/-- C7: `handleInnerText` returns a text node exactly when the looked-up
dynamic value is a string or a number (`float64` or `int`) and an error for
every other value (and when the lookup itself fails); an integer formats
without a decimal point and a string passes through unchanged. -/
theorem handleInnerText_spec (symbols : Scope) (path : String) :
    match lookup path symbols with
    | .error e => handleInnerText symbols path = .error e
    | .ok v =>
      match v with
      | .vNum g => handleInnerText symbols path = .ok (.text g)
      | .vInt n => handleInnerText symbols path = .ok (.text (formatInt n)) ∧
          ¬ '.' ∈ (formatInt n).data
      | .vStr s => handleInnerText symbols path = .ok (.text s)
      | _ => handleInnerText symbols path = .error "can not assign as inner text" := by
  rcases hl : lookup path symbols with e | v
  · simp only [handleInnerText, hl]
  · cases v <;> simp [handleInnerText, hl]
    exact formatInt_no_dot _

/-- C8 counterexample: with no `children` binding in the scope,
`evaluateChildren` fails with a lookup error rather than returning no nodes;
with an empty node-list binding it succeeds with no nodes. -/
theorem evaluateChildren_absent_errors :
    evaluateChildren [] = .error "key not found: children" ∧
    evaluateChildren [("children", .vNodes [])] = .ok [] :=
  ⟨rfl, rfl⟩

/-- C8 (amended): a `children` element returns the node list bound to
`children` in the current scope, succeeding with no nodes when the binding
is an empty node list (or a nil value, as `render` stores for a call without
children); when the binding is entirely absent, evaluation fails with
`key not found: children` instead of succeeding. -/
theorem evaluateChildren_spec (s : Scope) :
    match getField s "children" with
    | some (.vNodes ns) => evaluateChildren s = .ok ns
    | some .vNull => evaluateChildren s = .ok []
    | some _ => evaluateChildren s = .error "panic: Unexpected type of children"
    | none => evaluateChildren s = .error "key not found: children" := by
  have hp : lookup "children" s = lookupLoop [⟨"children", false⟩] (.vObj s) := rfl
  rcases hg : getField s "children" with - | v
  · simp only [evaluateChildren, hp, lookupLoop, hg]
    rfl
  · cases v <;> simp only [evaluateChildren, hp, lookupLoop, hg]

theorem bindParams_eq_nil (attrs : List (String × String)) (d : Value)
    (h : attrs.find? (fun a => a.1 == "params-as") = none) :
    bindParams attrs d = [] := by
  have hall := List.find?_eq_none.1 h
  clear h
  unfold bindParams
  revert hall
  induction attrs with
  | nil => intro _; rfl
  | cons a rest ih =>
    intro hall
    have ha : (a.1 == "params-as") = false := by
      have := hall a (List.mem_cons_self _ _)
      simpa using this
    simp only [List.foldl_cons, ha, Bool.false_eq_true, if_false]
    exact ih (fun x hx => hall x (List.mem_cons_of_mem _ hx))

/-- C10: when the target function declares no `params-as` attribute, the
`data` argument has no influence — `ExecuteFunction` builds an empty
function scope without binding `data`, so any two data values produce
identical output nodes and identical success-or-error results. -/
theorem executeFunction_data_independent
    (fuel : Nat) (p : Program) (mn fn : String) (m : Module) (f : HNode)
    (hm : getModule p mn = some m) (hf : getFunc m fn = some f)
    (hna : (HNode.attrsOf f).find? (fun a => a.1 == "params-as") = none) :
    ∀ d1 d2 : Value, ExecuteFunction fuel p mn fn d1 = ExecuteFunction fuel p mn fn d2 := by
  intro d1 d2
  have hb : bindParams f.attrsOf d1 = bindParams f.attrsOf d2 := by
    rw [bindParams_eq_nil f.attrsOf d1 hna, bindParams_eq_nil f.attrsOf d2 hna]
  simp only [ExecuteFunction, hm, hf, hb]

/-- A module with one parameterless function, for the C10 witness. -/
def demoFnC10 : HNode := .elem "function" [("name", "main")] [.elem "div" [] [.text "hi"]]

def demoModC10 : Module := ⟨[("main", demoFnC10)]⟩

def demoProgC10 : Program := ⟨[("main", demoModC10)]⟩

/-- Witness for C10: a string and a number input produce the same output. -/
theorem executeFunction_data_independent_witness :
    ExecuteFunction 10 demoProgC10 "main" "main" (.vStr "a")
      = ExecuteFunction 10 demoProgC10 "main" "main" (.vNum "1") :=
  executeFunction_data_independent 10 demoProgC10 "main" "main" demoModC10 demoFnC10
    rfl rfl rfl (.vStr "a") (.vNum "1")

end Runtime

/-!
## Tokenizer (src/tokenizer/tokenizer.go)

A hand-written state machine over the raw input. The model consumes the
input as a `List Char` (the source indexes bytes of an ASCII template);
the loop is driven by fuel, which `Tokenize` sets to `input.length + 1`:
every iteration of the source loop advances the position by at least one
byte, so that fuel is never exhausted.

`pushTok`, `pushAttr` and the value-append helpers panic in Go when the
current token or attribute is nil; along `Tokenize`'s control flow that
never happens (every call site has just initialized or checked them), and
the model returns the state unchanged in those unreachable branches.
-/

namespace Tokenizer

/-- The states of the tokenizer state machine (TokenizerState in the source). -/
inductive TokenizerState where
  | TEXT | TAG_OPEN | START_TAG_NAME | END_TAG_OPEN | END_TAG_NAME
  | AFTER_END_TAG_NAME | BEFORE_ATTR_NAME | ATTR_NAME | AFTER_ATTR_NAME
  | BEFORE_ATTR_VALUE | ATTR_VALUE_DOUBLE_QUOTE | ATTR_VALUE_SINGLE_QUOTE
  | SELF_CLOSING | MARKUP_DECLARATION | COMMENT | DOCTYPE
  | BEFORE_DOCTYPE_NAME | DOCTYPE_NAME | RAWTEXT_DATA
deriving DecidableEq, Repr

/-- Token kinds (TokenType in the source). -/
inductive TokenType where
  | doctype | startTag | endTag | selfClosingTag | text | comment | error
deriving DecidableEq, Repr

/-- A source position: 1-based line and column, advanced per byte. -/
structure Pos where
  line : Nat
  column : Nat
deriving DecidableEq, Repr

/-- An attribute of a tag token (`End` is `endPos`: `end` is reserved in Lean). -/
structure Attribute where
  name : String
  value : String
  start : Pos
  endPos : Pos
deriving DecidableEq, Repr

/-- A lexical token. -/
structure Token where
  type : TokenType
  value : String
  attributes : List Attribute
  start : Pos
  endPos : Pos
deriving DecidableEq, Repr

/-- The mutable fields of the Go Tokenizer other than the input cursor
(the remaining input is passed separately so that the loop is structural). -/
structure TokState where
  state : TokenizerState
  pos : Pos
  tokens : List Token
  currentToken : Option Token
  currentAttribute : Option Attribute
  doctypeNameBuffer : String
  storedTagName : String
deriving Repr

/-- A single-quote character, written via its code point. -/
def sqChar : Char := Char.ofNat 39

/-- A single-quote string, used in the error messages of the source. -/
def sq : String := String.singleton sqChar

/-- advance: position update for one consumed character. -/
def advancePos (p : Pos) (c : Char) : Pos :=
  if c = '\n' then ⟨p.line + 1, 1⟩ else ⟨p.line, p.column + 1⟩

/-- n calls to advance: consume n characters, updating the position.
Past the end of input, advance returns without moving (as in Go). -/
def advN : Pos → Nat → List Char → Pos × List Char
  | p, 0, l => (p, l)
  | p, _ + 1, [] => (p, [])
  | p, n + 1, c :: cs => advN (advancePos p c) n cs

/-- initializeToken: a fresh Text token at the current position. -/
def initialToken (p : Pos) : Token := ⟨.text, "", [], p, p⟩

/-- initializeAttribute: a fresh attribute at the current position. -/
def initialAttr (p : Pos) : Attribute := ⟨"", "", p, p⟩

/-- pushCurrentToken: record the end position and append to the token list. -/
def pushTok (s : TokState) : TokState :=
  match s.currentToken with
  | some tok =>
      { s with tokens := s.tokens ++ [{ tok with endPos := s.pos }],
               currentToken := none }
  | none => s

/-- pushCurrentAttribute: record the end position and append to the current token. -/
def pushAttr (s : TokState) : TokState :=
  match s.currentToken, s.currentAttribute with
  | some tok, some attr =>
      { s with currentToken :=
                 some { tok with attributes :=
                          tok.attributes ++ [{ attr with endPos := s.pos }] },
               currentAttribute := none }
  | _, _ => s

/-- Update the current token in place (Go mutates `t.currentToken` directly). -/
def mapTok (s : TokState) (f : Token → Token) : TokState :=
  { s with currentToken := s.currentToken.map f }

/-- Update the current attribute in place. -/
def mapAttr (s : TokState) (f : Attribute → Attribute) : TokState :=
  { s with currentAttribute := s.currentAttribute.map f }

/-- pushErrorToken: mark the current token (initializing it if nil) as an
error with the given message, push it, and reset the state to TEXT. -/
def pushErr (s : TokState) (msg : String) : TokState :=
  let s1 := match s.currentToken with
    | none => { s with currentToken := some (initialToken s.pos) }
    | some _ => s
  { pushTok (mapTok s1 fun tok => { tok with type := .error, value := msg })
    with state := .TEXT }

/-- isLetter from the source. -/
def isLetter (c : Char) : Bool :=
  (c ≥ 'a' && c ≤ 'z') || (c ≥ 'A' && c ≤ 'Z')

/-- isAlphanumeric from the source: letters, digits and hyphen. -/
def isAlphanumeric (c : Char) : Bool :=
  isLetter c || (c ≥ '0' && c ≤ '9') || c = '-'

/-- isWhitespace: unicode.IsSpace restricted to the byte range the
tokenizer feeds it (Go reads one byte at a time as a rune). -/
def isWhitespace (c : Char) : Bool :=
  c = ' ' || c = '\t' || c = '\n' || c = '\x0b' || c = '\x0c' || c = '\r'
    || c = '\x85' || c = '\xa0'

/-- The special (rawtext) tag names. -/
def specialTagNames : List String :=
  ["textarea", "title", "script", "style", "template"]

/-- strings.ToLower on the characters the tokenizer feeds it (ASCII). -/
def strToLower (s : String) : String := ⟨s.data.map Char.toLower⟩

/-- checkSpecialTag: is the current token value a special tag name
(compared in lower case)? -/
def checkSpecial (s : TokState) : Bool :=
  match s.currentToken with
  | none => false
  | some tok => specialTagNames.contains (strToLower tok.value)

/-- The current token value (used for storedTagName assignments). -/
def tagValue (s : TokState) : String :=
  match s.currentToken with
  | some tok => tok.value
  | none => ""

/-- checkDoctypeString: does the remaining input start with DOCTYPE
(case-insensitively)? -/
def checkDoctype (remaining : List Char) : Bool :=
  (remaining.take 7).map Char.toUpper == "DOCTYPE".toList

/-- checkCommentStart: does the remaining input start with Minus Minus? -/
def checkCommentStart (remaining : List Char) : Bool :=
  remaining.take 2 == ['-', '-']

/-- checkCommentEnd: does the remaining input start with the comment
closer? -/
def checkCommentEnd (remaining : List Char) : Bool :=
  remaining.take 3 == "-->".toList

/-- checkEndTag: does the remaining input start, case-insensitively, with
the closing tag of the stored rawtext tag name? -/
def checkEndTag (stored : String) (remaining : List Char) : Bool :=
  (remaining.take (stored.length + 3)).map Char.toLower
    == ("</" ++ stored ++ ">").toList.map Char.toLower

/-- The handling shared by the three branches that see the closing `>` of
an open tag (START_TAG_NAME, BEFORE_ATTR_NAME, ATTR_NAME): if the tag is
special, store its name, push the token and enter RAWTEXT_DATA; otherwise
push the token and return to TEXT. Applied after the `>` is consumed. -/
def finishOpenTag (s : TokState) : TokState :=
  if checkSpecial s then
    let s2 := pushTok { s with storedTagName := tagValue s }
    { s2 with currentToken := some (initialToken s2.pos), state := .RAWTEXT_DATA }
  else
    let s2 := pushTok s
    { s2 with currentToken := some (initialToken s2.pos), state := .TEXT }

/-- The Tokenize loop of the source: one iteration per fuel unit, each
consuming at least one character of the remaining input. At the end of
the input, the final token is pushed if it exists and has content. -/
def tokLoop : Nat → List Char → TokState → List Token
  | 0, _, s => s.tokens
  | _ + 1, [], s =>
      match s.currentToken with
      | some tok =>
          if tok.value == "" then s.tokens
          else s.tokens ++ [{ tok with endPos := s.pos }]
      | none => s.tokens
  | fuel + 1, c :: cs, s =>
      match s.state with
      | .TEXT =>
          if c = '<' then
            let s1 := match s.currentToken with
              | some tok => if tok.value == "" then s else pushTok s
              | none => s
            let s2 := { s1 with currentToken := some (initialToken s1.pos) }
            tokLoop fuel cs { s2 with pos := advancePos s2.pos c, state := .TAG_OPEN }
          else
            let s1 := match s.currentToken with
              | none => { s with currentToken := some (initialToken s.pos) }
              | some _ => s
            tokLoop fuel cs
              (mapTok { s1 with pos := advancePos s1.pos c }
                fun tok => { tok with value := tok.value.push c })
      | .TAG_OPEN =>
          if isLetter c then
            tokLoop fuel cs
              (mapTok { s with pos := advancePos s.pos c, state := .START_TAG_NAME }
                fun tok => { tok with type := .startTag, value := tok.value.push c })
          else if c = '/' then
            tokLoop fuel cs
              { (mapTok s fun tok => { tok with type := .endTag }) with
                pos := advancePos s.pos c, state := .END_TAG_OPEN }
          else if c = '!' then
            tokLoop fuel cs { s with pos := advancePos s.pos c, state := .MARKUP_DECLARATION }
          else
            tokLoop fuel cs
              (pushErr { s with pos := advancePos s.pos c }
                ("Invalid character after " ++ sq ++ "<" ++ sq))
      | .START_TAG_NAME =>
          if isAlphanumeric c then
            tokLoop fuel cs
              (mapTok { s with pos := advancePos s.pos c }
                fun tok => { tok with value := tok.value.push c })
          else if isWhitespace c then
            tokLoop fuel cs { s with pos := advancePos s.pos c, state := .BEFORE_ATTR_NAME }
          else if c = '>' then
            tokLoop fuel cs (finishOpenTag { s with pos := advancePos s.pos c })
          else if c = '/' then
            tokLoop fuel cs
              { (mapTok s fun tok => { tok with type := .selfClosingTag }) with
                pos := advancePos s.pos c, state := .SELF_CLOSING }
          else
            tokLoop fuel cs
              (pushErr { s with pos := advancePos s.pos c } "Invalid character in tag name")
      | .END_TAG_OPEN =>
          if isLetter c then
            tokLoop fuel cs
              (mapTok { s with pos := advancePos s.pos c, state := .END_TAG_NAME }
                fun tok => { tok with value := tok.value.push c })
          else
            tokLoop fuel cs
              (pushErr { s with pos := advancePos s.pos c }
                ("Expected tag name after " ++ sq ++ "</" ++ sq))
      | .END_TAG_NAME =>
          if isAlphanumeric c then
            tokLoop fuel cs
              (mapTok { s with pos := advancePos s.pos c }
                fun tok => { tok with value := tok.value.push c })
          else if c = '>' then
            let s1 := pushTok { s with pos := advancePos s.pos c }
            tokLoop fuel cs
              { s1 with currentToken := some (initialToken s1.pos), state := .TEXT }
          else if isWhitespace c then
            tokLoop fuel cs { s with pos := advancePos s.pos c, state := .AFTER_END_TAG_NAME }
          else
            tokLoop fuel cs
              (pushErr { s with pos := advancePos s.pos c } "Invalid character in end tag name")
      | .AFTER_END_TAG_NAME =>
          if isWhitespace c then
            tokLoop fuel cs { s with pos := advancePos s.pos c }
          else if c = '>' then
            let s1 := pushTok { s with pos := advancePos s.pos c }
            tokLoop fuel cs
              { s1 with currentToken := some (initialToken s1.pos), state := .TEXT }
          else
            tokLoop fuel cs
              (pushErr { s with pos := advancePos s.pos c }
                ("Expected " ++ sq ++ ">" ++ sq ++ " after end tag name"))
      | .BEFORE_ATTR_NAME =>
          if isWhitespace c then
            tokLoop fuel cs { s with pos := advancePos s.pos c }
          else if isLetter c then
            let s1 := { s with currentAttribute := some (initialAttr s.pos) }
            tokLoop fuel cs
              (mapAttr { s1 with pos := advancePos s1.pos c, state := .ATTR_NAME }
                fun a => { a with name := a.name.push c })
          else if c = '/' then
            tokLoop fuel cs
              { (mapTok s fun tok => { tok with type := .selfClosingTag }) with
                pos := advancePos s.pos c, state := .SELF_CLOSING }
          else if c = '>' then
            tokLoop fuel cs (finishOpenTag { s with pos := advancePos s.pos c })
          else
            tokLoop fuel cs
              (pushErr { s with pos := advancePos s.pos c }
                "Invalid character before attribute name")
      | .ATTR_NAME =>
          if isLetter c || c = '-' then
            tokLoop fuel cs
              (mapAttr { s with pos := advancePos s.pos c }
                fun a => { a with name := a.name.push c })
          else if isWhitespace c then
            tokLoop fuel cs { s with pos := advancePos s.pos c, state := .AFTER_ATTR_NAME }
          else if c = '=' then
            tokLoop fuel cs { s with pos := advancePos s.pos c, state := .BEFORE_ATTR_VALUE }
          else if c = '>' then
            tokLoop fuel cs (finishOpenTag { (pushAttr s) with pos := advancePos s.pos c })
          else if c = '/' then
            tokLoop fuel cs
              { (mapTok (pushAttr s) fun tok => { tok with type := .selfClosingTag }) with
                pos := advancePos s.pos c, state := .SELF_CLOSING }
          else
            tokLoop fuel cs
              (pushErr { s with pos := advancePos s.pos c }
                "Invalid character in attribute name")
      | .AFTER_ATTR_NAME =>
          if isWhitespace c then
            tokLoop fuel cs { s with pos := advancePos s.pos c }
          else if c = '=' then
            tokLoop fuel cs { s with pos := advancePos s.pos c, state := .BEFORE_ATTR_VALUE }
          else
            tokLoop fuel cs
              (pushErr { s with pos := advancePos s.pos c }
                ("Expected " ++ sq ++ "=" ++ sq ++ " after attribute name"))
      | .BEFORE_ATTR_VALUE =>
          if isWhitespace c then
            tokLoop fuel cs { s with pos := advancePos s.pos c }
          else if c = '"' then
            tokLoop fuel cs
              { s with pos := advancePos s.pos c, state := .ATTR_VALUE_DOUBLE_QUOTE }
          else if c = sqChar then
            tokLoop fuel cs
              { s with pos := advancePos s.pos c, state := .ATTR_VALUE_SINGLE_QUOTE }
          else
            tokLoop fuel cs
              (pushErr { s with pos := advancePos s.pos c } "Expected quoted attribute value")
      | .ATTR_VALUE_DOUBLE_QUOTE =>
          if c = '"' then
            tokLoop fuel cs
              { (pushAttr { s with pos := advancePos s.pos c }) with
                state := .BEFORE_ATTR_NAME }
          else
            tokLoop fuel cs
              (mapAttr { s with pos := advancePos s.pos c }
                fun a => { a with value := a.value.push c })
      | .ATTR_VALUE_SINGLE_QUOTE =>
          if c = sqChar then
            tokLoop fuel cs
              { (pushAttr { s with pos := advancePos s.pos c }) with
                state := .BEFORE_ATTR_NAME }
          else
            tokLoop fuel cs
              (mapAttr { s with pos := advancePos s.pos c }
                fun a => { a with value := a.value.push c })
      | .SELF_CLOSING =>
          if c = '>' then
            let s1 := pushTok { s with pos := advancePos s.pos c }
            tokLoop fuel cs
              { s1 with currentToken := some (initialToken s1.pos), state := .TEXT }
          else
            tokLoop fuel cs
              (pushErr { s with pos := advancePos s.pos c }
                ("Expected " ++ sq ++ ">" ++ sq ++ " after " ++ sq ++ "/"))
      | .MARKUP_DECLARATION =>
          if checkCommentStart (c :: cs) then
            let s1 := mapTok s fun tok => { tok with type := .comment }
            let pr := advN s1.pos 2 (c :: cs)
            tokLoop fuel pr.2 { s1 with pos := pr.1, state := .COMMENT }
          else if checkDoctype (c :: cs) then
            let s1 := mapTok s fun tok => { tok with type := .doctype }
            let pr := advN s1.pos 7 (c :: cs)
            tokLoop fuel pr.2 { s1 with pos := pr.1, state := .DOCTYPE }
          else
            tokLoop fuel cs
              (pushErr { s with pos := advancePos s.pos c } "Invalid markup declaration")
      | .COMMENT =>
          if checkCommentEnd (c :: cs) then
            let pr := advN s.pos 3 (c :: cs)
            let s1 := pushTok { s with pos := pr.1 }
            tokLoop fuel pr.2
              { s1 with currentToken := some (initialToken s1.pos), state := .TEXT }
          else
            tokLoop fuel cs { s with pos := advancePos s.pos c }
      | .DOCTYPE =>
          if isWhitespace c then
            tokLoop fuel cs { s with pos := advancePos s.pos c, state := .BEFORE_DOCTYPE_NAME }
          else
            tokLoop fuel cs
              (pushErr { s with pos := advancePos s.pos c } "Expected whitespace after DOCTYPE")
      | .BEFORE_DOCTYPE_NAME =>
          if isWhitespace c then
            tokLoop fuel cs { s with pos := advancePos s.pos c }
          else if isLetter c then
            tokLoop fuel cs
              { s with doctypeNameBuffer := String.singleton c,
                       pos := advancePos s.pos c, state := .DOCTYPE_NAME }
          else
            tokLoop fuel cs
              (pushErr { s with pos := advancePos s.pos c } "Expected DOCTYPE name")
      | .DOCTYPE_NAME =>
          if isLetter c then
            tokLoop fuel cs
              { s with doctypeNameBuffer := s.doctypeNameBuffer.push c,
                       pos := advancePos s.pos c }
          else if c = '>' then
            if strToLower s.doctypeNameBuffer == "html" then
              let s1 := pushTok { s with pos := advancePos s.pos c }
              tokLoop fuel cs
                { s1 with currentToken := some (initialToken s1.pos), state := .TEXT }
            else
              tokLoop fuel cs
                (pushErr { s with pos := advancePos s.pos c } "Invalid DOCTYPE name")
          else
            tokLoop fuel cs
              (pushErr { s with pos := advancePos s.pos c }
                "Invalid character in DOCTYPE name")
      | .RAWTEXT_DATA =>
          if checkEndTag s.storedTagName (c :: cs) then
            let s1 := match s.currentToken with
              | some tok => if tok.value == "" then s else pushTok s
              | none => s
            let endTagStart := s1.pos
            let pr := advN s1.pos (s1.storedTagName.length + 3) (c :: cs)
            let endTok : Token := ⟨.endTag, s1.storedTagName, [], endTagStart, pr.1⟩
            tokLoop fuel pr.2
              { s1 with pos := pr.1, tokens := s1.tokens ++ [endTok],
                        currentToken := some (initialToken pr.1), state := .TEXT }
          else
            let s1 := match s.currentToken with
              | none => { s with currentToken := some (initialToken s.pos) }
              | some _ => s
            tokLoop fuel cs
              (mapTok { s1 with pos := advancePos s1.pos c }
                fun tok => { tok with value := tok.value.push c })

/-- Tokenize: run the state machine from the initial state (TEXT, position
(1,1), one freshly initialized text token) over the whole input. -/
def Tokenize (input : String) : List Token :=
  tokLoop (input.length + 1) input.toList
    { state := .TEXT, pos := ⟨1, 1⟩, tokens := [],
      currentToken := some (initialToken ⟨1, 1⟩),
      currentAttribute := none, doctypeNameBuffer := "", storedTagName := "" }

end Tokenizer

/-!
## Parser (src/unnamed/part_007, Parse; src/parser/parser.go is the same
loop without the attribute-name validation)

The Go Parse consumes the token stream and keeps a stack of open
elements seeded with a synthetic root node. The model runs the same
switch over a list of the tokens produced by the tokenizer above
(the spec pairs this parser with that tokenizer); the end of the list
plays the ErrorToken (end of input) role, and an error token in the
stream stops consumption exactly as ErrorToken does.

Go builds the tree by appending a freshly created element to its parent
at start-tag time and filling in its children while it is on the stack;
the model keeps each open element as a stack frame and appends the
completed element to the frame below when it is popped, which yields the
same tree. When the synthetic root itself is popped (a stray top-level
closing root tag), its finished children move to the `done` register;
with the stack empty, a later start or text token indexes
`stack[len(stack)-1]` out of range in Go, modelled as a panic error.

Position metadata maps (NodePositions, attribute position re-scanning)
are bookkeeping not modelled here; no claim mentions them.
-/

namespace Parser

open Tokenizer

/-- A node of the parse tree: element, text, comment or doctype. -/
inductive PNode where
  | elem (tag : String) (attributes : List Attribute) (children : List PNode)
  | ptext (value : String)
  | pcomment (value : String)
  | pdoctype (value : String)

/-- A ParseError: position plus message (the message includes the
"parse error: " prefix that newParseError adds). -/
structure ParseErr where
  pos : Pos
  message : String
deriving DecidableEq, Repr

/-- An open element on the parser stack: its tag, attributes, start
position and the children collected so far. -/
structure Frame where
  tag : String
  attributes : List Attribute
  start : Pos
  children : List PNode

/-- The anchored regex for attribute names from part_007,
`[a-zA-Z][a-zA-Z0-9\-_]*` over the whole string: first character. -/
def isAttrNameStart (c : Char) : Bool :=
  (c ≥ 'a' && c ≤ 'z') || (c ≥ 'A' && c ≤ 'Z')

/-- Subsequent characters of a valid attribute name. -/
def isAttrNameChar (c : Char) : Bool :=
  isAttrNameStart c || (c ≥ '0' && c ≤ '9') || c = '-' || c = '_'

/-- validAttrNameRegex.MatchString: the whole name matches
`[a-zA-Z][a-zA-Z0-9\-_]*` anchored at both ends. -/
def validAttrName (s : String) : Bool :=
  match s.toList with
  | [] => false
  | c :: cs => isAttrNameStart c && cs.all isAttrNameChar

/-- The ErrorToken (end of input) case of the Parse switch: with unclosed
elements above the root, fail at the last-opened element; otherwise
return the root children (taken from `done` if the root was popped). -/
def parseEOF : List Frame → Option (List PNode) → Except ParseErr (List PNode)
  | f :: _ :: _, _ => .error ⟨f.start, "parse error: unclosed tag <" ++ f.tag ++ ">"⟩
  | [f], _ => .ok f.children
  | [], done => .ok (done.getD [])

/-- The Parse token loop. The stack holds the open elements, innermost
first, with the synthetic root at the bottom; `done` holds the root
children once the root frame has been popped. Doctype, comment and
self-closing tokens have no case in the Go switch and are skipped. -/
def parseLoop : List Token → List Frame → Option (List PNode) →
    Except ParseErr (List PNode)
  | [], stack, done => parseEOF stack done
  | ⟨.error, _, _, _, _⟩ :: _, stack, done => parseEOF stack done
  | ⟨.startTag, v, attrs, ts, _⟩ :: toks, stack, done =>
      match attrs.find? (fun a => a.name == "" || !validAttrName a.name) with
      | some a => .error ⟨ts, "parse error: invalid attribute: " ++ a.name⟩
      | none =>
          match stack with
          | [] => .error ⟨ts, "panic: index out of range"⟩
          | f :: rest => parseLoop toks (⟨v, attrs, ts, []⟩ :: f :: rest) done
  | ⟨.endTag, v, _, ts, _⟩ :: toks, stack, done =>
      match stack with
      | [] => .error ⟨ts, "parse error: unexpected closing tag </" ++ v ++ ">"⟩
      | f :: rest =>
          if f.tag == v then
            match rest with
            | g :: rest2 =>
                parseLoop toks
                  ({ g with children :=
                       g.children ++ [.elem f.tag f.attributes f.children] } :: rest2)
                  done
            | [] => parseLoop toks [] (some f.children)
          else
            .error ⟨ts, "parse error: mismatched closing tag: expected </"
                      ++ f.tag ++ ">, got </" ++ v ++ ">"⟩
  | ⟨.text, v, _, ts, _⟩ :: toks, stack, done =>
      match stack with
      | [] => .error ⟨ts, "panic: index out of range"⟩
      | f :: rest => parseLoop toks ({ f with children := f.children ++ [.ptext v] } :: rest) done
  | ⟨.doctype, _, _, _, _⟩ :: toks, stack, done => parseLoop toks stack done
  | ⟨.comment, _, _, _, _⟩ :: toks, stack, done => parseLoop toks stack done
  | ⟨.selfClosingTag, _, _, _, _⟩ :: toks, stack, done => parseLoop toks stack done

/-- The root frame: the synthetic root element (its start position is the
Go zero value, as startPositions holds no entry for the root). -/
def rootFrame : Frame := ⟨"root", [], ⟨0, 0⟩, []⟩

/-- Parse over an explicit token stream: run the loop from the root-only
stack and return the children of the synthetic root. -/
def ParseTokens (toks : List Token) : Except ParseErr (List PNode) :=
  parseLoop toks [rootFrame] none

/-- Parse of a template string: the token stream is produced by the
tokenizer of src/tokenizer. -/
def Parse (template : String) : Except ParseErr (List PNode) :=
  ParseTokens (Tokenize template)

/-- Modelled from the spec: the standard HTML void-element list that
section 4.2 of the spec gives the parser; no parser in src has it. -/
def voidElements : List String :=
  ["area", "base", "br", "col", "embed", "hr", "img", "input",
   "link", "meta", "param", "source", "track", "wbr"]

/-- Modelled from the spec: the parser loop of section 4.2, for
comparison with `parseLoop` from the source. A start tag whose name is a
void element appends a childless element without pushing it; an end tag
naming a void element is ignored; text, comment and doctype tokens each
append a corresponding node; self-closing tags are not given a rule and
are skipped. -/
def parseLoopV : List Token → List Frame → Option (List PNode) →
    Except ParseErr (List PNode)
  | [], stack, done => parseEOF stack done
  | ⟨.error, _, _, _, _⟩ :: _, stack, done => parseEOF stack done
  | ⟨.startTag, v, attrs, ts, _⟩ :: toks, stack, done =>
      match attrs.find? (fun a => a.name == "" || !validAttrName a.name) with
      | some a => .error ⟨ts, "parse error: invalid attribute: " ++ a.name⟩
      | none =>
          match stack with
          | [] => .error ⟨ts, "panic: index out of range"⟩
          | f :: rest =>
              if voidElements.contains v then
                parseLoopV toks
                  ({ f with children := f.children ++ [.elem v attrs []] } :: rest) done
              else
                parseLoopV toks (⟨v, attrs, ts, []⟩ :: f :: rest) done
  | ⟨.endTag, v, _, ts, _⟩ :: toks, stack, done =>
      if voidElements.contains v then
        parseLoopV toks stack done
      else
        match stack with
        | [] => .error ⟨ts, "parse error: unexpected closing tag </" ++ v ++ ">"⟩
        | f :: rest =>
            if f.tag == v then
              match rest with
              | g :: rest2 =>
                  parseLoopV toks
                    ({ g with children :=
                         g.children ++ [.elem f.tag f.attributes f.children] } :: rest2)
                    done
              | [] => parseLoopV toks [] (some f.children)
            else
              .error ⟨ts, "parse error: mismatched closing tag: expected </"
                        ++ f.tag ++ ">, got </" ++ v ++ ">"⟩
  | ⟨.text, v, _, ts, _⟩ :: toks, stack, done =>
      match stack with
      | [] => .error ⟨ts, "panic: index out of range"⟩
      | f :: rest =>
          parseLoopV toks ({ f with children := f.children ++ [.ptext v] } :: rest) done
  | ⟨.doctype, v, _, _, _⟩ :: toks, stack, done =>
      match stack with
      | [] => parseLoopV toks stack done
      | f :: rest =>
          parseLoopV toks ({ f with children := f.children ++ [.pdoctype v] } :: rest) done
  | ⟨.comment, v, _, _, _⟩ :: toks, stack, done =>
      match stack with
      | [] => parseLoopV toks stack done
      | f :: rest =>
          parseLoopV toks ({ f with children := f.children ++ [.pcomment v] } :: rest) done
  | ⟨.selfClosingTag, _, _, _, _⟩ :: toks, stack, done => parseLoopV toks stack done

/-- Modelled from the spec: Parse over a token stream with the
void-element rules of section 4.2. -/
def ParseTokensV (toks : List Token) : Except ParseErr (List PNode) :=
  parseLoopV toks [rootFrame] none

/-- Helper for the attribute-validation claim: whenever the parse loop
returns ok on a stream without error tokens, every start-tag token of the
stream carries only valid attribute names (the loop consumed and
validated every token). -/
theorem parseLoop_ok_attrs_valid (toks : List Token) :
    ∀ stack done res, (∀ t ∈ toks, t.type ≠ TokenType.error) →
      parseLoop toks stack done = .ok res →
      ∀ t ∈ toks, t.type = TokenType.startTag →
        ∀ a ∈ t.attributes, validAttrName a.name = true := by
  induction toks with
  | nil =>
      intro stack done res _ _ t ht
      simp at ht
  | cons tok toks ih =>
      intro stack done res herr hok t ht htype a ha
      have herr2 : ∀ u ∈ toks, u.type ≠ TokenType.error :=
        fun u hu => herr u (List.mem_cons_of_mem _ hu)
      obtain ⟨ty, v, attrs, ts, te⟩ := tok
      cases ty with
      | error => exact absurd rfl (herr _ (List.mem_cons_self _ _))
      | startTag =>
          rcases hfind : attrs.find? (fun x => x.name == "" || !validAttrName x.name)
            with _ | a0
          · rcases stack with _ | ⟨f, rest⟩
            · simp [parseLoop, hfind] at hok
            · simp only [parseLoop, hfind] at hok
              rcases List.mem_cons.mp ht with heq | hmem
              · subst heq
                have h1 := List.find?_eq_none.mp hfind a ha
                simp at h1
                exact h1.2
              · exact ih _ done res herr2 hok t hmem htype a ha
          · simp [parseLoop, hfind] at hok
      | endTag =>
          rcases stack with _ | ⟨f, rest⟩
          · simp [parseLoop] at hok
          · rcases List.mem_cons.mp ht with heq | hmem
            · subst heq; simp at htype
            · by_cases htag : (f.tag == v) = true
              · rcases rest with _ | ⟨g, rest2⟩
                · simp only [parseLoop, htag, if_true] at hok
                  exact ih _ _ res herr2 hok t hmem htype a ha
                · simp only [parseLoop, htag, if_true] at hok
                  exact ih _ done res herr2 hok t hmem htype a ha
              · simp [parseLoop, htag] at hok
      | text =>
          rcases stack with _ | ⟨f, rest⟩
          · simp [parseLoop] at hok
          · rcases List.mem_cons.mp ht with heq | hmem
            · subst heq; simp at htype
            · simp only [parseLoop] at hok
              exact ih _ done res herr2 hok t hmem htype a ha
      | doctype =>
          rcases List.mem_cons.mp ht with heq | hmem
          · subst heq; simp at htype
          · simp only [parseLoop] at hok
            exact ih _ done res herr2 hok t hmem htype a ha
      | comment =>
          rcases List.mem_cons.mp ht with heq | hmem
          · subst heq; simp at htype
          · simp only [parseLoop] at hok
            exact ih _ done res herr2 hok t hmem htype a ha
      | selfClosingTag =>
          rcases List.mem_cons.mp ht with heq | hmem
          · subst heq; simp at htype
          · simp only [parseLoop] at hok
            exact ih _ done res herr2 hok t hmem htype a ha

/-- C4: the parser validates every attribute name of every start tag it
consumes against the anchored regex `[a-zA-Z][a-zA-Z0-9\-_]*`: a parse
that returns ok (on a stream without error tokens, which end consumption
early) saw only valid attribute names, and a start tag carrying an
invalid attribute name makes the parse fail immediately with a parse
error at that tag's start position naming the offending attribute. -/
theorem parse_validates_attr_names :
    (∀ toks res, (∀ t ∈ toks, t.type ≠ TokenType.error) →
        ParseTokens toks = .ok res →
        ∀ t ∈ toks, t.type = TokenType.startTag →
          ∀ a ∈ t.attributes, validAttrName a.name = true) ∧
    (∀ v attrs ts te toks stack done a,
        attrs.find? (fun x => x.name == "" || !validAttrName x.name) = some a →
        parseLoop (⟨.startTag, v, attrs, ts, te⟩ :: toks) stack done =
          .error ⟨ts, "parse error: invalid attribute: " ++ a.name⟩) := by
  constructor
  · intro toks res herr hok
    exact parseLoop_ok_attrs_valid toks [rootFrame] none res herr hok
  · intro v attrs ts te toks stack done a hfind
    simp [parseLoop, hfind]

/-- A start tag for div whose single attribute name begins with a digit. -/
def badAttrTok : Token :=
  ⟨.startTag, "div", [⟨"1x", "a", ⟨1, 6⟩, ⟨1, 12⟩⟩], ⟨1, 1⟩, ⟨1, 13⟩⟩

theorem parse_validates_attr_names_witness :
    parseLoop [badAttrTok] [rootFrame] none =
      .error ⟨⟨1, 1⟩, "parse error: invalid attribute: 1x"⟩ :=
  parse_validates_attr_names.2 "div" [⟨"1x", "a", ⟨1, 6⟩, ⟨1, 12⟩⟩]
    ⟨1, 1⟩ ⟨1, 13⟩ [] [rootFrame] none ⟨"1x", "a", ⟨1, 6⟩, ⟨1, 12⟩⟩ rfl

/-- C9: tokenizing the script template yields exactly three tokens — a
start tag for script, one text token holding the whole rawtext (the
embedded div tag is not tokenized), and a synthesized end tag for script
— and parsing it builds a single script element whose only child is that
text node. -/
theorem script_rawtext_spec :
    Tokenize "<script>let a = \"<div>\"</script>" =
      [⟨.startTag, "script", [], ⟨1, 1⟩, ⟨1, 9⟩⟩,
       ⟨.text, "let a = \"<div>\"", [], ⟨1, 9⟩, ⟨1, 24⟩⟩,
       ⟨.endTag, "script", [], ⟨1, 24⟩, ⟨1, 33⟩⟩] ∧
    Parse "<script>let a = \"<div>\"</script>" =
      .ok [.elem "script" [] [.ptext "let a = \"<div>\""]] :=
  ⟨rfl, rfl⟩

/-- C5 counterexample: the parser in the source has no void-element list:
a lone br start tag is pushed onto the open-element stack like any other
element, so the template consisting of `<br>` is rejected with an
unclosed-tag error instead of parsing successfully. -/
theorem void_br_unclosed :
    Parse "<br>" = .error ⟨⟨1, 1⟩, "parse error: unclosed tag <br>"⟩ := rfl

/-- C5: amended — the source parser treats void elements like all others:
every start tag with valid attribute names is pushed onto the stack, so
`<br>` alone fails as unclosed, `<br></br>` parses as an empty br
element, and the br end tag is not ignored (closing an open div across an
open br is a mismatched-closing-tag error). The void-element parser the
spec describes (`parseLoopV`, modelled from the spec for comparison)
does behave as claimed: a void start tag is appended without being
pushed, a void end tag is ignored, and `<br>` alone parses. -/
theorem void_elements_behaviour :
    (∀ v attrs ts te toks f rest done,
        attrs.find? (fun x => x.name == "" || !validAttrName x.name) = none →
        parseLoop (⟨.startTag, v, attrs, ts, te⟩ :: toks) (f :: rest) done =
          parseLoop toks (⟨v, attrs, ts, []⟩ :: f :: rest) done) ∧
    Parse "<br></br>" = .ok [.elem "br" [] []] ∧
    Parse "<div><br></div>" =
      .error ⟨⟨1, 10⟩,
        "parse error: mismatched closing tag: expected </br>, got </div>"⟩ ∧
    (∀ v attrs ts te toks f rest done,
        voidElements.contains v = true →
        attrs.find? (fun x => x.name == "" || !validAttrName x.name) = none →
        parseLoopV (⟨.startTag, v, attrs, ts, te⟩ :: toks) (f :: rest) done =
          parseLoopV toks
            ({ f with children := f.children ++ [.elem v attrs []] } :: rest) done) ∧
    (∀ v attrs ts te toks stack done,
        voidElements.contains v = true →
        parseLoopV (⟨.endTag, v, attrs, ts, te⟩ :: toks) stack done =
          parseLoopV toks stack done) ∧
    ParseTokensV (Tokenize "<br>") = .ok [.elem "br" [] []] := by
  refine ⟨?_, rfl, rfl, ?_, ?_, rfl⟩
  · intro v attrs ts te toks f rest done hfind
    simp [parseLoop, hfind]
  · intro v attrs ts te toks f rest done hvoid hfind
    have hv : v ∈ voidElements := by simpa using hvoid
    simp [parseLoopV, hfind, hv]
  · intro v attrs ts te toks stack done hvoid
    have hv : v ∈ voidElements := by simpa using hvoid
    simp [parseLoopV, hv]

theorem void_elements_behaviour_witness :
    parseLoopV [⟨.endTag, "br", [], ⟨1, 1⟩, ⟨1, 6⟩⟩] [rootFrame] none =
      parseLoopV [] [rootFrame] none :=
  void_elements_behaviour.2.2.2.2.1 "br" [] ⟨1, 1⟩ ⟨1, 6⟩ [] [rootFrame] none rfl

end Parser

end Hop
